import Mathlib

/-!
Verification of the `cue` pipeline orchestrator (`orchestrator.py`) against its
natural-language specification.  Python dictionaries are modelled as
association lists with unique keys; dictionary update `{**a, **b}` keeps the
keys of `a` that do not occur in `b` and appends the entries of `b` (insertion
order differs from CPython, which keeps an overridden key at its original
position, but key membership and looked-up values — the only facts the
properties below consult — agree).
-/

namespace Cue

/-- A JSON scalar as it appears as a context value (string / int / bool). -/
inductive Scalar where
  | str (s : String)
  | int (n : Int)
  | bool (b : Bool)
deriving DecidableEq, Repr

/-- A flat context: a Python dict mapping parameter keys to scalar values. -/
abbrev FlatCtx := List (String × Scalar)

/-- Python `d[k] = v`: replace the entry for `k` (dropping the old one), else add. -/
def dictInsert (d : FlatCtx) (k : String) (v : Scalar) : FlatCtx :=
  d.filter (fun kv => kv.1 ≠ k) ++ [(k, v)]

/-- Python `{**a, **b}` / `a.update(b)`: keys of `b` override keys of `a`. -/
def dictUpdate (a b : FlatCtx) : FlatCtx :=
  a.filter (fun kv => (b.lookup kv.1).isNone) ++ b

/-- Python dict equality: same keys, and equal values at every key. -/
def ctxEqb (a b : FlatCtx) : Bool :=
  a.all (fun kv => b.lookup kv.1 == some kv.2) &&
  b.all (fun kv => a.lookup kv.1 == some kv.2)

/-- The value specification of one context entry as classified by
`ContextHelper.parse`: a list (`isinstance(val, list)`), a numeric range
(`isinstance(val, dict)`, keys `start`/`end`/`step`), or a scalar. -/
inductive ValSpec where
  | scalar (v : Scalar)
  | vlist (l : List Scalar)
  | vrange (start stop step : Int)
deriving DecidableEq, Repr

/-- A context as written in the input document: ordered key/value-spec pairs. -/
abbrev Ctx := List (String × ValSpec)

/-- Number of elements of Python `range(start, stop, step)`.
(`step = 0` raises `ValueError` in Python; it is modelled as the empty range
and is exercised by no claim.) -/
def rangeLen (start stop step : Int) : Nat :=
  if 0 < step then ((stop - start + step - 1) / step).toNat
  else if step < 0 then ((start - stop - step - 1) / (-step)).toNat
  else 0

/-- The list of integers produced by Python `range(start, stop, step)`. -/
def rangeList (start stop step : Int) : List Int :=
  (List.range (rangeLen start stop step)).map (fun i : Nat => start + step * (i : Int))

/-- The whitespace characters removed by Python `str.strip()`. -/
def isPySpace (c : Char) : Bool :=
  c = ' ' || c = '\t' || c = '\n' || c = '\x0d' || c = '\x0b' || c = '\x0c'

/-- Python `str.strip()` on the character list of a string. -/
def pyStripChars (s : List Char) : List Char :=
  ((s.dropWhile isPySpace).reverse.dropWhile isPySpace).reverse

/-- Python `str.strip()`. -/
def pyStrip (s : String) : String :=
  ⟨pyStripChars s.data⟩

/-- Python `str.split(sep)` for a one-character separator `c`: split at every
occurrence of `c`, keeping empty components. -/
def pySplitChars (c : Char) : List Char → List (List Char)
  | [] => [[]]
  | x :: rest =>
      match pySplitChars c rest with
      | [] => if x = c then [[], []] else [[x]]
      | h :: t => if x = c then [] :: h :: t else (x :: h) :: t

/-- Python `s.split(c)` as a list of strings. -/
def pySplit (c : Char) (s : String) : List String :=
  (pySplitChars c s.data).map (fun cs => ⟨cs⟩)

namespace ContextHelper

/-- Character which delimits components of a paired key/val
(`ContextHelper.paired_delimiter`). -/
def paired_delimiter : Char := ','

/-- `ContextHelper.key_is_paired`: true if the key contains the delimiter
(Python `cls.paired_delimiter in key`). -/
def key_is_paired (key : String) : Bool :=
  key.data.contains paired_delimiter

/-- `ContextHelper.paired_parameter_expansion_for`: split on `','` and strip
whitespace around every component. -/
def paired_parameter_expansion_for (paired_str : String) : List String :=
  (pySplit ',' paired_str).map pyStrip

/-- Build the dict `{k : v for k, v in zip(keys, vals)}`: zip-shortest, and a
repeated key keeps the latest value, as in a Python dict comprehension. -/
def dictOfZip (keys : List String) (vals : List Scalar) : FlatCtx :=
  (keys.zip vals).foldl (fun d kv => dictInsert d kv.1 kv.2) []

/-- `ContextHelper.unpair`: break a paired key/value into single entries, or
wrap an unpaired key/value as a one-entry dict.  (For a paired key Python
calls `.split` on the value and hence requires it to be a string; a non-string
value there would raise `AttributeError` and is reached by no claim.) -/
def unpair (key : String) (val : Scalar) : FlatCtx :=
  if key_is_paired key then
    match val with
    | .str v =>
        dictOfZip (paired_parameter_expansion_for key)
          ((paired_parameter_expansion_for v).map Scalar.str)
    | v => [(key, v)]
  else [(key, val)]

/-- `ContextHelper.expand_parameter_list_into`: for each value of the list and
each existing flat context, emit the context extended by `unpair key val`
(outer loop over the list values, inner loop over the contexts). -/
def expand_parameter_list_into (flattened_contexts : List FlatCtx)
    (key : String) : List Scalar → List FlatCtx
  | [] => []
  | v :: vs =>
      flattened_contexts.map (fun inst => dictUpdate inst (unpair key v)) ++
      expand_parameter_list_into flattened_contexts key vs

/-- `ContextHelper.expand_parameter_range_into`: like the list expansion, with
the values drawn from `range(start, stop, step)` and assigned directly. -/
def expand_parameter_range_into (flattened_contexts : List FlatCtx)
    (key : String) (start stop step : Int) : List FlatCtx :=
  (rangeList start stop step).foldr
    (fun i acc => flattened_contexts.map (fun inst => dictInsert inst key (.int i)) ++ acc)
    []

/-- The loop body of `ContextHelper.parse`, iterating the context entries in
document order and threading the accumulated list of flat contexts. -/
def parseAux (flattened_contexts : List FlatCtx) : Ctx → List FlatCtx
  | [] => flattened_contexts
  | (key, .vlist l) :: rest =>
      parseAux (expand_parameter_list_into flattened_contexts key l) rest
  | (key, .vrange s e st) :: rest =>
      parseAux (expand_parameter_range_into flattened_contexts key s e st) rest
  | (key, .scalar v) :: rest =>
      parseAux (flattened_contexts.map (fun inst => dictUpdate inst (unpair key v))) rest

/-- `ContextHelper.parse`: flatten a context into the list of flat contexts,
starting from the singleton list holding the empty assignment. -/
def parse (context : Ctx) : List FlatCtx :=
  parseAux [[]] context

/-- `ContextHelper.merge`: cartesian cross of two lists of flat contexts;
for each pair `(a, b)` (outer loop over the first list) emit `{**a, **b}`. -/
def merge : List FlatCtx → List FlatCtx → List FlatCtx
  | [], _ => []
  | a :: as_, l2 => l2.map (fun b => dictUpdate a b) ++ merge as_ l2

end ContextHelper

/-- The expansion cardinality one context entry contributes: the length of a
list, the size of a range, and `1` for a scalar. -/
def entryFactor : String × ValSpec → Nat
  | (_, .scalar _) => 1
  | (_, .vlist l) => l.length
  | (_, .vrange s e st) => rangeLen s e st

end Cue

namespace Cue

open ContextHelper

/-! ### Dictionary lemmas -/

theorem lookup_append_of_lookup_left_eq_none {l1 l2 : FlatCtx} {k : String}
    (h : l1.lookup k = none) : (l1 ++ l2).lookup k = l2.lookup k := by
  induction l1 with
  | nil => rfl
  | cons kv rest ih =>
      obtain ⟨k', v'⟩ := kv
      rw [List.cons_append]
      cases hk : (k == k') with
      | true =>
          exfalso
          simp only [List.lookup, hk] at h
          cases h
      | false =>
          simp only [List.lookup, hk] at h ⊢
          exact ih h

theorem lookup_filter_isNone {b : FlatCtx} {k : String} {v : Scalar}
    (a : FlatCtx) (h : b.lookup k = some v) :
    (a.filter (fun kv => (b.lookup kv.1).isNone)).lookup k = none := by
  induction a with
  | nil => rfl
  | cons kv rest ih =>
      obtain ⟨k', v'⟩ := kv
      by_cases hb : (List.lookup k' b).isNone = true
      · have hkk : k ≠ k' := by
          intro hkk
          subst hkk
          rw [h] at hb
          cases hb
        have hne : (k == k') = false := beq_eq_false_iff_ne.mpr hkk
        rw [List.filter_cons, if_pos hb]
        simp only [List.lookup, hne]
        exact ih
      · rw [List.filter_cons, if_neg hb]
        exact ih

/-- In `{**a, **b}`, every key present in `b` carries `b`'s value. -/
theorem lookup_dictUpdate_right {a b : FlatCtx} {k : String} {v : Scalar}
    (h : b.lookup k = some v) : (dictUpdate a b).lookup k = some v := by
  unfold dictUpdate
  rw [lookup_append_of_lookup_left_eq_none (lookup_filter_isNone a h)]
  exact h

/-! ### Cardinality of flattening (`ContextHelper.parse`) -/

theorem length_expand_parameter_list_into (fcs : List FlatCtx) (key : String)
    (l : List Scalar) :
    (expand_parameter_list_into fcs key l).length = l.length * fcs.length := by
  induction l with
  | nil => simp [expand_parameter_list_into]
  | cons v vs ih =>
      simp [expand_parameter_list_into, ih, Nat.succ_mul, Nat.add_comm]

theorem length_expand_parameter_range_into (fcs : List FlatCtx) (key : String)
    (s e st : Int) :
    (expand_parameter_range_into fcs key s e st).length
      = rangeLen s e st * fcs.length := by
  unfold expand_parameter_range_into
  have hfold : ∀ l : List Int,
      (l.foldr (fun i acc =>
        fcs.map (fun inst => dictInsert inst key (.int i)) ++ acc) []).length
      = l.length * fcs.length := by
    intro l
    induction l with
    | nil => simp
    | cons i is ih => simp [ih, Nat.succ_mul, Nat.add_comm]
  rw [hfold]
  have hlen : (rangeList s e st).length = rangeLen s e st := by
    simp [rangeList]
  rw [hlen]

theorem parseAux_length (entries : Ctx) :
    ∀ fcs : List FlatCtx,
      (parseAux fcs entries).length = fcs.length * (entries.map entryFactor).prod := by
  induction entries with
  | nil => intro fcs; simp [parseAux]
  | cons kv rest ih =>
      intro fcs
      obtain ⟨key, spec⟩ := kv
      cases spec with
      | scalar v =>
          simp [parseAux, ih, entryFactor]
      | vlist l =>
          simp [parseAux, ih, entryFactor, length_expand_parameter_list_into,
            Nat.mul_assoc, Nat.mul_comm l.length]
      | vrange s e st =>
          simp [parseAux, ih, entryFactor, length_expand_parameter_range_into,
            Nat.mul_assoc, Nat.mul_comm (rangeLen s e st)]

/-- C3: the number of flat contexts emitted by `ContextHelper.parse` is the
product of the per-entry expansion cardinalities (list length, range size,
`1` for a scalar), and flattening the empty context yields the one-element
list containing the empty assignment. -/
theorem parse_length_eq_prod_factors :
    (∀ context : Ctx,
        (ContextHelper.parse context).length = (context.map entryFactor).prod) ∧
    ContextHelper.parse [] = [[]] := by
  constructor
  · intro context
    rw [ContextHelper.parse, parseAux_length]
    simp
  · rfl

/-! ### Merge (`ContextHelper.merge`) -/

theorem merge_length (A B : List FlatCtx) :
    (merge A B).length = A.length * B.length := by
  induction A with
  | nil => simp [merge]
  | cons a as_ ih => simp [merge, ih, Nat.succ_mul, Nat.add_comm]

theorem mem_merge {A B : List FlatCtx} {a b : FlatCtx}
    (ha : a ∈ A) (hb : b ∈ B) : dictUpdate a b ∈ merge A B := by
  induction A with
  | nil => cases ha
  | cons x xs ih =>
      rcases List.mem_cons.mp ha with h | h
      · subst h
        exact List.mem_append_left _ (List.mem_map_of_mem _ hb)
      · exact List.mem_append_right _ (ih h)

/-- C4: `merge(A, B)` emits `|A| · |B|` flat contexts; the context emitted for
the pair `(a, b)` is `{**a, **b}`, it appears in the result, and on it every
key present in `b` carries `b`'s value (right-bias override on collision). -/
theorem merge_cardinality_and_right_bias :
    ∀ A B : List FlatCtx,
      (merge A B).length = A.length * B.length ∧
      ∀ a ∈ A, ∀ b ∈ B,
        dictUpdate a b ∈ merge A B ∧
        ∀ (k : String) (v : Scalar),
          b.lookup k = some v → (dictUpdate a b).lookup k = some v := by
  intro A B
  refine ⟨merge_length A B, ?_⟩
  intro a ha b hb
  exact ⟨mem_merge ha hb, fun k v h => lookup_dictUpdate_right h⟩

/-- Witness for C4 on concrete lists, exercising the collision override. -/
theorem merge_cardinality_and_right_bias_witness :
    dictUpdate [("x", Scalar.int 1)] [("x", Scalar.int 2)]
        ∈ merge [[("x", Scalar.int 1)]] [[("x", Scalar.int 2)]] ∧
      (dictUpdate [("x", Scalar.int 1)] [("x", Scalar.int 2)]).lookup "x"
        = some (Scalar.int 2) := by
  have h := (merge_cardinality_and_right_bias
      [[("x", Scalar.int 1)]] [[("x", Scalar.int 2)]]).2
      [("x", Scalar.int 1)] (by simp) [("x", Scalar.int 2)] (by simp)
  exact ⟨h.1, h.2 "x" (Scalar.int 2) rfl⟩

end Cue

namespace Cue

open ContextHelper

/-! ### Pair arity (`ContextHelper.unpair`) -/

theorem map_fst_zip_sublist {α β : Type} :
    ∀ (ks : List α) (vs : List β), ((ks.zip vs).map Prod.fst).Sublist ks
  | [], _ => by simp
  | _ :: _, [] => by simp
  | k :: ks, v :: vs => by
      simpa using List.Sublist.cons₂ k (map_fst_zip_sublist ks vs)

theorem foldl_dictInsert_eq_append :
    ∀ (ps : List (String × Scalar)) (acc : FlatCtx),
      (ps.map Prod.fst).Nodup →
      (∀ kv ∈ acc, ∀ p ∈ ps, kv.1 ≠ p.1) →
      ps.foldl (fun d kv => dictInsert d kv.1 kv.2) acc = acc ++ ps := by
  intro ps
  induction ps with
  | nil => intro acc _ _; simp
  | cons p rest ih =>
      intro acc hnd hdisj
      obtain ⟨k, v⟩ := p
      have hfilter : acc.filter (fun kv => kv.1 ≠ k) = acc := by
        apply List.filter_eq_self.mpr
        intro kv hkv
        simpa using hdisj kv hkv (k, v) (List.mem_cons_self _ _)
      have hins : dictInsert acc k v = acc ++ [(k, v)] := by
        rw [dictInsert, hfilter]
      simp only [List.foldl_cons]
      rw [hins, ih (acc ++ [(k, v)])]
      · simp
      · simpa using (List.nodup_cons.mp (by simpa using hnd)).2
      · intro kv hkv p hp
        rcases List.mem_append.mp hkv with hacc | hone
        · exact hdisj kv hacc p (List.mem_cons_of_mem _ hp)
        · have hk : kv = (k, v) := by simpa using hone
          subst hk
          have hnotin : k ∉ rest.map Prod.fst :=
            (List.nodup_cons.mp (by simpa using hnd)).1
          intro hkp
          apply hnotin
          rw [show k = p.1 from hkp]
          exact List.mem_map_of_mem Prod.fst hp

theorem dictOfZip_eq_zip (ks : List String) (vs : List Scalar)
    (hnd : ks.Nodup) : dictOfZip ks vs = ks.zip vs := by
  have h1 : ((ks.zip vs).map Prod.fst).Nodup :=
    (map_fst_zip_sublist ks vs).nodup hnd
  unfold dictOfZip
  rw [foldl_dictInsert_eq_append _ [] h1 (by intro kv h; cases h)]
  simp

/-- C7, counterexample: `unpair` on the paired key `"a,a"` (arity 2) and the
paired value `"1,2"` (arity 2) returns a single-entry mapping, not a mapping
with `min(2, 2) = 2` entries: a Python dict comprehension collapses the
duplicate key components. -/
theorem unpair_arity_counterexample :
    key_is_paired "a,a" = true ∧
    (paired_parameter_expansion_for "a,a").length = 2 ∧
    (paired_parameter_expansion_for "1,2").length = 2 ∧
    unpair "a,a" (Scalar.str "1,2") = [("a", Scalar.str "2")] ∧
    (unpair "a,a" (Scalar.str "1,2")).length ≠ min 2 2 := by
  decide

/-- C7, amended: for a paired key `k` whose stripped components are pairwise
distinct and any value string `v`, `unpair(k, v)` strips every component of
`k` and `v` and zips them positionally (zip-shortest), so the mapping has
exactly `min(arity k, arity v)` entries. -/
theorem unpair_paired_arity (k v : String)
    (hp : key_is_paired k = true)
    (hnd : (paired_parameter_expansion_for k).Nodup) :
    unpair k (Scalar.str v)
        = (paired_parameter_expansion_for k).zip
            ((paired_parameter_expansion_for v).map Scalar.str) ∧
    (unpair k (Scalar.str v)).length
        = min (paired_parameter_expansion_for k).length
            (paired_parameter_expansion_for v).length := by
  have h1 : unpair k (Scalar.str v)
      = dictOfZip (paired_parameter_expansion_for k)
          ((paired_parameter_expansion_for v).map Scalar.str) := by
    simp [unpair, hp]
  rw [h1, dictOfZip_eq_zip _ _ hnd]
  exact ⟨rfl, by rw [List.length_zip, List.length_map]⟩

/-- Witness for C7 (amended) on the paired key `"a,b"` and value `" 1 ,2,3"`:
components are stripped and zip-shortest applies. -/
theorem unpair_paired_arity_witness :
    unpair "a,b" (Scalar.str " 1 ,2,3")
        = [("a", Scalar.str "1"), ("b", Scalar.str "2")] ∧
    (unpair "a,b" (Scalar.str " 1 ,2,3")).length = 2 := by
  have h := unpair_paired_arity "a,b" " 1 ,2,3" (by decide) (by decide)
  exact ⟨h.1.trans (by decide), h.2.trans (by decide)⟩

end Cue

namespace Cue

/-! ### FilePipe construction (`FilePipe.__init__`) -/

/-- The pair of cache files owned by a `FilePipe` (`cache<hash>.in` /
`cache<hash>.out`); `none` models a file that does not exist on disk. -/
structure CacheFiles where
  inFile : Option String
  outFile : Option String
deriving DecidableEq, Repr

/-- `FilePipe.__init__`: write an empty in-file only when none exists
(`if not os.path.exists(self.into())`), then truncate the out-file. -/
def filePipeInit (c : CacheFiles) : CacheFiles :=
  let c1 := if c.inFile.isNone then { c with inFile := some "" } else c
  { c1 with outFile := some "" }

/-- C10: constructing a `FilePipe` always truncates the out-file to empty,
creates an empty in-file only when no in-file exists, and leaves an existing
in-file's contents unchanged. -/
theorem filePipeInit_frame :
    ∀ c : CacheFiles,
      (filePipeInit c).outFile = some "" ∧
      (c.inFile = none → (filePipeInit c).inFile = some "") ∧
      (∀ s, c.inFile = some s → (filePipeInit c).inFile = some s) := by
  intro c
  refine ⟨rfl, ?_, ?_⟩
  · intro h
    simp [filePipeInit, h]
  · intro s h
    simp [filePipeInit, h]

/-- Witness for C10: a pre-existing in-file packet survives while the
stale out-file is discarded. -/
theorem filePipeInit_frame_witness :
    (filePipeInit ⟨some "packet", some "stale"⟩).outFile = some "" ∧
    (filePipeInit ⟨some "packet", some "stale"⟩).inFile = some "packet" ∧
    (filePipeInit ⟨none, none⟩).inFile = some "" := by
  refine ⟨(filePipeInit_frame ⟨some "packet", some "stale"⟩).1,
    (filePipeInit_frame ⟨some "packet", some "stale"⟩).2.2 "packet" rfl,
    (filePipeInit_frame ⟨none, none⟩).2.1 rfl⟩

/-! ### Wait predicate (`Executable.is_waiting_for_upstream`) -/

/-- `Executable.is_waiting_for_upstream`: `in_file_size` is
`os.path.getsize(file_pipe.into())` and `ingest_count` is
`len(os.listdir(self.data_ingest_directory))`. -/
def is_waiting_for_upstream (n_pipes_in : Nat) (in_file_size : Nat)
    (ingest_count : Nat) : Bool :=
  if in_file_size ≠ 0 then false
  else decide (n_pipes_in > ingest_count)

/-- C5: the wait predicate returns `False` whenever the in-file is non-empty;
otherwise it is `True` iff the ingest directory holds strictly fewer files
than `n_pipes_in`. -/
theorem is_waiting_for_upstream_spec
    (n_pipes_in in_file_size ingest_count : Nat) :
    (in_file_size ≠ 0 →
      is_waiting_for_upstream n_pipes_in in_file_size ingest_count = false) ∧
    (in_file_size = 0 →
      (is_waiting_for_upstream n_pipes_in in_file_size ingest_count = true ↔
        ingest_count < n_pipes_in)) := by
  constructor
  · intro h
    simp [is_waiting_for_upstream, h]
  · intro h
    subst h
    simp [is_waiting_for_upstream, Nat.lt_iff_add_one_le]

/-- Witness for C5: non-empty in-file short-circuits; empty in-file counts
ingested files against `n_pipes_in`. -/
theorem is_waiting_for_upstream_spec_witness :
    is_waiting_for_upstream 2 7 0 = false ∧
    (is_waiting_for_upstream 2 0 1 = true ↔ 1 < 2) := by
  exact ⟨(is_waiting_for_upstream_spec 2 7 0).1 (by decide),
    (is_waiting_for_upstream_spec 2 0 1).2 rfl⟩

/-! ### Worker timeout path (`ScriptOrchestrator._run`) -/

/-- The `while i < n` wait loop of `_run`, sampling the wait predicate once
per iteration; returns the final value of `i`. -/
def waitLoopFrom (n : Nat) (waiting : Nat → Bool) (i : Nat) : Nat :=
  if h : i < n then
    if waiting i then waitLoopFrom n waiting (i + 1) else i
  else i
termination_by n - i

/-- The observable effects of one `_run` worker invocation: lines printed,
whether the external runner ran, and the `(ingest path, data)` writes made to
downstream ingest directories by `executable.send`. -/
structure WorkerEffects where
  printed : List String
  invokedRunner : Bool
  deliveries : List (String × String)
deriving DecidableEq, Repr

/-- `ScriptOrchestrator._run`, abstracted over the environment: `waiting j`
is the value of `executable.is_waiting_for_upstream(file_pipe)` at the
`j`-th sample, `runner_output` the bytes the external runner leaves in the
out-file, and `downstream_dirs` the ingest paths of the outgoing pipes. -/
def runWorker (n_times_before_timeout : Nat) (waiting : Nat → Bool)
    (executable_str : String) (runner_output : String)
    (downstream_dirs : List String) : WorkerEffects :=
  let i := waitLoopFrom n_times_before_timeout waiting 0
  if i = n_times_before_timeout then
    { printed := ["failed script:", executable_str]
      invokedRunner := false
      deliveries := [] }
  else
    { printed := []
      invokedRunner := true
      deliveries := downstream_dirs.map (fun d => (d, runner_output)) }

/-- Replay a list of ingest-directory writes onto a file-system state
(path ↦ contents). -/
def applyDeliveries (ds : List (String × String)) (fs : String → String) :
    String → String :=
  ds.foldl (fun acc d => Function.update acc d.1 d.2) fs

theorem waitLoopFrom_all_waiting (n : Nat) (waiting : Nat → Bool)
    (h : ∀ j, j < n → waiting j = true) :
    ∀ fuel i, n - i = fuel → i ≤ n → waitLoopFrom n waiting i = n := by
  intro fuel
  induction fuel with
  | zero =>
      intro i hfi hle
      have hin : i = n := by omega
      subst hin
      rw [waitLoopFrom]
      simp
  | succ f ih =>
      intro i hfi hle
      have hlt : i < n := by omega
      rw [waitLoopFrom, dif_pos hlt, if_pos (h i hlt)]
      exact ih (i + 1) (by omega) (by omega)

/-- C6: when every sample of the wait predicate reports "still waiting", the
worker prints `"failed script:"` followed by the executable's canonical
string, never invokes the external runner, performs no deliveries over its
outgoing pipes, and every previously delivered ingest file is left
unchanged. -/
theorem runWorker_timeout (n : Nat) (waiting : Nat → Bool)
    (executable_str runner_output : String) (downstream_dirs : List String)
    (h : ∀ j, j < n → waiting j = true) :
    runWorker n waiting executable_str runner_output downstream_dirs =
      { printed := ["failed script:", executable_str]
        invokedRunner := false
        deliveries := [] } ∧
    ∀ fs : String → String,
      applyDeliveries
        (runWorker n waiting executable_str runner_output
          downstream_dirs).deliveries fs = fs := by
  have hloop : waitLoopFrom n waiting 0 = n :=
    waitLoopFrom_all_waiting n waiting h (n - 0) 0 rfl (Nat.zero_le n)
  constructor
  · rw [runWorker]
    simp [hloop]
  · intro fs
    rw [runWorker]
    simp [hloop, applyDeliveries]

/-- Witness for C6 with two exhausted samples and one downstream pipe. -/
theorem runWorker_timeout_witness :
    runWorker 2 (fun _ => true) "exe" "out" ["dir/h"] =
      { printed := ["failed script:", "exe"]
        invokedRunner := false
        deliveries := [] } ∧
    applyDeliveries
      (runWorker 2 (fun _ => true) "exe" "out" ["dir/h"]).deliveries
      (fun _ => "prior") = (fun _ => "prior") := by
  have h := runWorker_timeout 2 (fun _ => true) "exe" "out" ["dir/h"]
    (fun j _ => rfl)
  exact ⟨h.1, h.2 (fun _ => "prior")⟩

end Cue

namespace Cue

/-! ### Cleanup (`ScriptOrchestrator.clean` / `purge`, `Executable.clean`) -/

/-- `shutil.rmtree` with default arguments on a file-system state modelled as
the list of existing directories: removing a missing directory raises
`FileNotFoundError`. -/
def rmtree (fs : List String) (d : String) : Except String (List String) :=
  if d ∈ fs then .ok (fs.erase d)
  else .error ("FileNotFoundError: " ++ d)

/-- `ScriptOrchestrator.clean`: `executable.clean()` — i.e. `shutil.rmtree`
on the executable's ingest directory — for every executable in the plan. -/
def cleanAll (ingest_dirs : List String) (fs : List String) :
    Except String (List String) :=
  ingest_dirs.foldlM (fun acc d => rmtree acc d) fs

/-- `ScriptOrchestrator.purge`: `shutil.rmtree` on the scratch root. -/
def purge (tmp_directory : String) (fs : List String) :
    Except String (List String) :=
  rmtree fs tmp_directory

theorem cleanAll_subset :
    ∀ (dirs : List String) (fs fs' : List String),
      cleanAll dirs fs = .ok fs' → fs' ⊆ fs := by
  intro dirs
  induction dirs with
  | nil =>
      intro fs fs' h
      cases h
      exact fun x hx => hx
  | cons d rest ih =>
      intro fs fs' h
      rw [cleanAll, List.foldlM_cons] at h
      cases hr : rmtree fs d with
      | error msg => rw [hr] at h; cases h
      | ok fs1 =>
          rw [hr] at h
          have h1 : cleanAll rest fs1 = .ok fs' := h
          have hsub : fs1 ⊆ fs := by
            rw [rmtree] at hr
            by_cases hd : d ∈ fs
            · rw [if_pos hd] at hr
              cases hr
              exact List.erase_subset d fs
            · rw [if_neg hd] at hr
              cases hr
          exact fun x hx => hsub (ih fs1 fs' h1 hx)

/-- C9, counterexample: with a single planned executable whose ingest
directory exists, `clean` succeeds once, but a second `clean` raises
`FileNotFoundError`; `purge` on a non-existent scratch directory also
raises.  Cleanup is not idempotent. -/
theorem clean_idempotence_counterexample :
    cleanAll ["tmp/h1/"] ["tmp/h1/"] = .ok [] ∧
    cleanAll ["tmp/h1/"] [] = .error "FileNotFoundError: tmp/h1/" ∧
    purge "tmp/" [] = .error "FileNotFoundError: tmp/" := by
  refine ⟨?_, ?_, ?_⟩ <;> rfl

/-- C9, amended: `clean` is idempotent only for an empty plan.  After a
successful `clean` of a non-empty plan the ingest directories are gone, so a
second `clean` fails with `FileNotFoundError`, and `purge` fails whenever the
scratch directory does not exist. -/
theorem cleanup_not_idempotent :
    (∀ (d : String) (dirs : List String) (fs fs' : List String),
        fs.Nodup → cleanAll (d :: dirs) fs = .ok fs' →
        ∃ msg, cleanAll (d :: dirs) fs' = .error msg) ∧
    (∀ fs : List String, cleanAll [] fs = .ok fs) ∧
    (∀ (tmp : String) (fs : List String), tmp ∉ fs →
        ∃ msg, purge tmp fs = .error msg) := by
  refine ⟨?_, fun fs => rfl, ?_⟩
  · intro d dirs fs fs' hnd h
    rw [cleanAll, List.foldlM_cons] at h
    cases hr : rmtree fs d with
    | error msg => rw [hr] at h; cases h
    | ok fs1 =>
        rw [hr] at h
        have h1 : cleanAll dirs fs1 = .ok fs' := h
        have hd : d ∈ fs := by
          rw [rmtree] at hr
          by_cases hd : d ∈ fs
          · exact hd
          · rw [if_neg hd] at hr; cases hr
        have hfs1 : fs1 = fs.erase d := by
          rw [rmtree, if_pos hd] at hr
          cases hr
          rfl
        have hdne : d ∉ fs' := by
          intro hmem
          have : d ∈ fs1 := cleanAll_subset dirs fs1 fs' h1 hmem
          rw [hfs1] at this
          exact hnd.not_mem_erase this
        refine ⟨"FileNotFoundError: " ++ d, ?_⟩
        rw [cleanAll, List.foldlM_cons, rmtree, if_neg hdne]
        rfl
  · intro tmp fs htmp
    exact ⟨"FileNotFoundError: " ++ tmp, by rw [purge, rmtree, if_neg htmp]⟩

/-- Witness for C9 (amended) at a one-executable plan. -/
theorem cleanup_not_idempotent_witness :
    (∃ msg, cleanAll ["tmp/h1/"] [] = Except.error msg) ∧
    cleanAll [] ["tmp/h1/"] = .ok ["tmp/h1/"] ∧
    (∃ msg, purge "tmp/" [] = Except.error msg) := by
  refine ⟨cleanup_not_idempotent.1 "tmp/h1/" [] ["tmp/h1/"] []
      (by decide) rfl,
    cleanup_not_idempotent.2.1 ["tmp/h1/"],
    cleanup_not_idempotent.2.2 "tmp/" [] (by decide)⟩

end Cue

namespace Cue

/-! ### Planner and Linker (`ScriptOrchestrator.queue_tasks`)

`Script.flattened_contexts` and `Block.flattened_contexts` hold
`ContextHelper.parse` of the corresponding context JSON, exactly as the
`Script`/`Block` constructors compute them.  Executables are identified by
their index in `executable_list`; a `Pipe` is the pair (upstream index,
downstream index), and an executable's `n_pipes_in` is the number of pipes
terminating on it (each `Pipe.__init__` increments the downstream counter by
one).  `takesOf` records, per admitted executable, the `takes` tag of the
script it was admitted from; it is specification-only ghost data that no
planner decision reads. -/

structure Script where
  guid : String
  path : String
  flattened_contexts : List FlatCtx
  returns : String
  takes : Option String
deriving DecidableEq, Repr

structure Block where
  name : String
  serial : Int
  flattened_contexts : List FlatCtx
  scripts : List Script
deriving DecidableEq, Repr

structure Exec where
  context_instance : FlatCtx
  script_guid : String
  script_path : String
  block_name : String
  block_serial : Int
  version : String
  pipeline_name : String
deriving DecidableEq, Repr

/-- The `Executable` constructed by `queue_tasks` for one context instance.
(The SHA-1 hash and the ingest directory it names are derived from the
canonical string and play no role in planning decisions.) -/
def mkExec (version pipeline_name block_name : String) (block_serial : Int)
    (script : Script) (ci : FlatCtx) : Exec :=
  { context_instance := ci
    script_guid := script.guid
    script_path := script.path
    block_name := block_name
    block_serial := block_serial
    version := version
    pipeline_name := pipeline_name }

/-- `Executable.__eq__`: deep equality on the (context, block name, guid)
triple only — the hash is not consulted. -/
def eqExec (a b : Exec) : Bool :=
  ctxEqb a.context_instance b.context_instance &&
  a.block_name == b.block_name &&
  a.script_guid == b.script_guid

/-- The identity triple of the spec, as a proposition. -/
def eqTriple (a b : Exec) : Prop :=
  ctxEqb a.context_instance b.context_instance = true ∧
  a.block_name = b.block_name ∧ a.script_guid = b.script_guid

/-- A producer index (`returns` tag ↦ executable indices), used both for the
pipeline-level and the block-level index. -/
abbrev ProdIndex := List (String × List Nat)

/-- `index.get(tag) is None → index[tag] = []` followed by
`index[tag].append(i)`. -/
def idxAdd (idx : ProdIndex) (tag : String) (i : Nat) : ProdIndex :=
  match idx.lookup tag with
  | none => idx ++ [(tag, [i])]
  | some l => idx.filter (fun kv => kv.1 ≠ tag) ++ [(tag, l ++ [i])]

/-- The mutable state of `queue_tasks`: the executable list, the ghost
`takes` tags, the pipes created so far, and the pipeline-level producer
index. -/
structure PlanState where
  execs : List Exec
  takesOf : List (Option String)
  pipes : List (Nat × Nat)
  pIndex : ProdIndex
deriving DecidableEq, Repr

/-- `n_pipes_in` of the executable at index `i`: the number of pipes whose
downstream end is `i`. -/
def nPipesIn (st : PlanState) (i : Nat) : Nat :=
  (st.pipes.filter (fun ud => ud.2 = i)).length

/-- `block_serial` of the executable at index `i` (`0` out of range). -/
def serialAt (st : PlanState) (i : Nat) : Int :=
  ((st.execs.get? i).map (fun e => e.block_serial)).getD 0

/-- The body of the innermost loop of `queue_tasks`: build the candidate
executable, skip it if an equal one is already planned, otherwise append it,
register it under its `returns` tag in both indices, and when the script has
a `takes` tag connect every upstream found in the block-level index, else in
the pipeline-level index (`KeyError` when neither resolves). -/
def admitExec (version pipeline_name block_name : String) (block_serial : Int)
    (script : Script) (ci : FlatCtx) (st : PlanState) (bIdx : ProdIndex) :
    Except String (PlanState × ProdIndex) :=
  let e := mkExec version pipeline_name block_name block_serial script ci
  if st.execs.any (fun e2 => eqExec e2 e) then .ok (st, bIdx)
  else
    let i := st.execs.length
    let st1 : PlanState :=
      { execs := st.execs ++ [e]
        takesOf := st.takesOf ++ [script.takes]
        pipes := st.pipes
        pIndex := idxAdd st.pIndex script.returns i }
    let bIdx1 := idxAdd bIdx script.returns i
    match script.takes with
    | none => .ok (st1, bIdx1)
    | some t =>
        match bIdx1.lookup t with
        | some ups =>
            .ok ({ st1 with pipes := st1.pipes ++ ups.map (fun u => (u, i)) },
              bIdx1)
        | none =>
            match st1.pIndex.lookup t with
            | some ups =>
                .ok ({ st1 with
                        pipes := st1.pipes ++ ups.map (fun u => (u, i)) },
                  bIdx1)
            | none => .error ("KeyError: " ++ t)

/-- Loop over `script_level_flattened_contexts`. -/
def processCtxInstances (version pipeline_name block_name : String)
    (block_serial : Int) (script : Script) :
    List FlatCtx → PlanState → ProdIndex → Except String (PlanState × ProdIndex)
  | [], st, bIdx => .ok (st, bIdx)
  | ci :: rest, st, bIdx =>
      match admitExec version pipeline_name block_name block_serial script
        ci st bIdx with
      | .error msg => .error msg
      | .ok r =>
          processCtxInstances version pipeline_name block_name block_serial
            script rest r.1 r.2

/-- Loop over `block.scripts`; each script's contexts are
`merge([block_level_context_instance], script.flattened_contexts)`. -/
def processScripts (version pipeline_name block_name : String)
    (block_serial : Int) (bc : FlatCtx) :
    List Script → PlanState → ProdIndex → Except String (PlanState × ProdIndex)
  | [], st, bIdx => .ok (st, bIdx)
  | script :: rest, st, bIdx =>
      match processCtxInstances version pipeline_name block_name block_serial
        script (ContextHelper.merge [bc] script.flattened_contexts) st bIdx with
      | .error msg => .error msg
      | .ok r =>
          processScripts version pipeline_name block_name block_serial bc rest
            r.1 r.2

/-- Loop over `block_level_flattened_contexts`; each iteration starts from a
fresh empty block-level index. -/
def processBlockCtxs (version pipeline_name block_name : String)
    (block_serial : Int) (scripts : List Script) :
    List FlatCtx → PlanState → Except String PlanState
  | [], st => .ok st
  | bc :: rest, st =>
      match processScripts version pipeline_name block_name block_serial bc
        scripts st [] with
      | .error msg => .error msg
      | .ok r =>
          processBlockCtxs version pipeline_name block_name block_serial
            scripts rest r.1

/-- Loop over `pipeline.blocks`; each block's contexts are
`merge(pipeline.flattened_contexts, block.flattened_contexts)`. -/
def processBlocks (version pipeline_name : String)
    (pipelineCtxs : List FlatCtx) :
    List Block → PlanState → Except String PlanState
  | [], st => .ok st
  | b :: rest, st =>
      match processBlockCtxs version pipeline_name b.name b.serial
        b.scripts (ContextHelper.merge pipelineCtxs b.flattened_contexts) st with
      | .error msg => .error msg
      | .ok st1 => processBlocks version pipeline_name pipelineCtxs rest st1

/-- `ScriptOrchestrator.queue_tasks` over a parsed pipeline. -/
def queue_tasks (version pipeline_name : String)
    (pipelineCtxs : List FlatCtx) (blocks : List Block) :
    Except String PlanState :=
  processBlocks version pipeline_name pipelineCtxs blocks
    { execs := [], takesOf := [], pipes := [], pIndex := [] }

end Cue

namespace Cue

/-! ### Planner invariants -/

theorem eqExec_eq_true_iff (a b : Exec) : eqExec a b = true ↔ eqTriple a b := by
  simp [eqExec, eqTriple, Bool.and_eq_true, beq_iff_eq, and_assoc]

/-- Complete case analysis of one successful `admitExec` step. -/
theorem admitExec_ok_cases {v p bn : String} {bs : Int} {script : Script}
    {ci : FlatCtx} {st : PlanState} {bIdx : ProdIndex} {st' : PlanState}
    {b' : ProdIndex}
    (h : admitExec v p bn bs script ci st bIdx = .ok (st', b')) :
    (st' = st ∧ b' = bIdx) ∨
    (st.execs.any
        (fun e2 => eqExec e2 (mkExec v p bn bs script ci)) = false ∧
      st'.execs = st.execs ++ [mkExec v p bn bs script ci] ∧
      st'.takesOf = st.takesOf ++ [script.takes] ∧
      st'.pIndex = idxAdd st.pIndex script.returns st.execs.length ∧
      b' = idxAdd bIdx script.returns st.execs.length ∧
      ((st'.pipes = st.pipes ∧ script.takes = none) ∨
        ∃ t ups, script.takes = some t ∧
          st'.pipes = st.pipes ++
            ups.map (fun u => (u, st.execs.length)) ∧
          ((idxAdd bIdx script.returns st.execs.length).lookup t
              = some ups ∨
            ((idxAdd bIdx script.returns st.execs.length).lookup t = none ∧
              (idxAdd st.pIndex script.returns st.execs.length).lookup t
                = some ups)))) := by
  unfold admitExec at h
  by_cases hg : (st.execs.any
      (fun e2 => eqExec e2 (mkExec v p bn bs script ci))) = true
  · rw [if_pos hg] at h
    simp only [Except.ok.injEq, Prod.mk.injEq] at h
    exact Or.inl ⟨h.1.symm, h.2.symm⟩
  · rw [if_neg hg] at h
    have hg' : (st.execs.any
        (fun e2 => eqExec e2 (mkExec v p bn bs script ci))) = false := by
      simpa using hg
    right
    cases hts : script.takes with
    | none =>
        rw [hts] at h
        simp only [Except.ok.injEq, Prod.mk.injEq] at h
        obtain ⟨h1, h2⟩ := h
        subst h1
        subst h2
        exact ⟨hg', rfl, rfl, rfl, rfl, Or.inl ⟨rfl, rfl⟩⟩
    | some t =>
        rw [hts] at h
        simp only [] at h
        cases hbl : (idxAdd bIdx script.returns st.execs.length).lookup t with
        | some ups =>
            rw [hbl] at h
            simp only [Except.ok.injEq, Prod.mk.injEq] at h
            obtain ⟨h1, h2⟩ := h
            subst h1
            subst h2
            exact ⟨hg', rfl, rfl, rfl, rfl,
              Or.inr ⟨t, ups, rfl, rfl, Or.inl hbl⟩⟩
        | none =>
            rw [hbl] at h
            cases hpl : (idxAdd st.pIndex script.returns
                st.execs.length).lookup t with
            | some ups =>
                rw [hpl] at h
                simp only [Except.ok.injEq, Prod.mk.injEq] at h
                obtain ⟨h1, h2⟩ := h
                subst h1
                subst h2
                exact ⟨hg', rfl, rfl, rfl, rfl,
                  Or.inr ⟨t, ups, rfl, rfl, Or.inr ⟨hbl, hpl⟩⟩⟩
            | none =>
                rw [hpl] at h
                cases h

/-- The pairwise-distinctness invariant of the plan. -/
def PairwiseOK (st : PlanState) : Prop :=
  st.execs.Pairwise (fun a b => eqExec a b = false)

theorem admitExec_pairwise {v p bn : String} {bs : Int} {script : Script}
    {ci : FlatCtx} {st : PlanState} {bIdx : ProdIndex} {st' : PlanState}
    {b' : ProdIndex}
    (h : admitExec v p bn bs script ci st bIdx = .ok (st', b'))
    (hp : PairwiseOK st) : PairwiseOK st' := by
  rcases admitExec_ok_cases h with ⟨rfl, _⟩ | ⟨hg, hexecs, _⟩
  · exact hp
  · rw [PairwiseOK, hexecs, List.pairwise_append]
    refine ⟨hp, List.pairwise_singleton _ _, ?_⟩
    intro a ha b hb
    have hb' : b = mkExec v p bn bs script ci := by simpa using hb
    subst hb'
    have := List.any_eq_false.mp hg
    simpa using this a ha

theorem processCtxInstances_pairwise {v p bn : String} {bs : Int}
    {script : Script} :
    ∀ (cis : List FlatCtx) (st : PlanState) (bIdx : ProdIndex)
      (st' : PlanState) (b' : ProdIndex),
      processCtxInstances v p bn bs script cis st bIdx = .ok (st', b') →
      PairwiseOK st → PairwiseOK st' := by
  intro cis
  induction cis with
  | nil =>
      intro st bIdx st' b' h hp
      simp only [processCtxInstances, Except.ok.injEq, Prod.mk.injEq] at h
      rw [← h.1]
      exact hp
  | cons ci rest ih =>
      intro st bIdx st' b' h hp
      rw [processCtxInstances] at h
      cases ha : admitExec v p bn bs script ci st bIdx with
      | error msg => rw [ha] at h; cases h
      | ok r =>
          rw [ha] at h
          exact ih r.1 r.2 st' b' h (admitExec_pairwise ha hp)

theorem processScripts_pairwise {v p bn : String} {bs : Int} {bc : FlatCtx} :
    ∀ (scripts : List Script) (st : PlanState) (bIdx : ProdIndex)
      (st' : PlanState) (b' : ProdIndex),
      processScripts v p bn bs bc scripts st bIdx = .ok (st', b') →
      PairwiseOK st → PairwiseOK st' := by
  intro scripts
  induction scripts with
  | nil =>
      intro st bIdx st' b' h hp
      simp only [processScripts, Except.ok.injEq, Prod.mk.injEq] at h
      rw [← h.1]
      exact hp
  | cons script rest ih =>
      intro st bIdx st' b' h hp
      rw [processScripts] at h
      cases ha : processCtxInstances v p bn bs script
          (ContextHelper.merge [bc] script.flattened_contexts) st bIdx with
      | error msg => rw [ha] at h; cases h
      | ok r =>
          rw [ha] at h
          exact ih r.1 r.2 st' b' h
            (processCtxInstances_pairwise _ st bIdx r.1 r.2 ha hp)

theorem processBlockCtxs_pairwise {v p bn : String} {bs : Int}
    {scripts : List Script} :
    ∀ (bcs : List FlatCtx) (st st' : PlanState),
      processBlockCtxs v p bn bs scripts bcs st = .ok st' →
      PairwiseOK st → PairwiseOK st' := by
  intro bcs
  induction bcs with
  | nil =>
      intro st st' h hp
      simp only [processBlockCtxs, Except.ok.injEq] at h
      rw [← h]
      exact hp
  | cons bc rest ih =>
      intro st st' h hp
      rw [processBlockCtxs] at h
      cases ha : processScripts v p bn bs bc scripts st [] with
      | error msg => rw [ha] at h; cases h
      | ok r =>
          rw [ha] at h
          exact ih r.1 st' h (processScripts_pairwise scripts st [] r.1 r.2 ha hp)

theorem processBlocks_pairwise {v p : String} {pcs : List FlatCtx} :
    ∀ (blocks : List Block) (st st' : PlanState),
      processBlocks v p pcs blocks st = .ok st' →
      PairwiseOK st → PairwiseOK st' := by
  intro blocks
  induction blocks with
  | nil =>
      intro st st' h hp
      simp only [processBlocks, Except.ok.injEq] at h
      rw [← h]
      exact hp
  | cons b rest ih =>
      intro st st' h hp
      rw [processBlocks] at h
      cases ha : processBlockCtxs v p b.name b.serial b.scripts
          (ContextHelper.merge pcs b.flattened_contexts) st with
      | error msg => rw [ha] at h; cases h
      | ok st1 =>
          rw [ha] at h
          exact ih st1 st' h
            (processBlockCtxs_pairwise _ st st1 ha hp)

/-- C1: when `queue_tasks` completes, no two distinct entries of the
executable list agree on the (final-FlatContext, block-name, producer-tag)
identity triple — `Executable.__eq__` compares exactly these three fields
(deep dict equality on the context) and never consults the hash. -/
theorem queue_tasks_no_duplicates (version pipeline_name : String)
    (pipelineCtxs : List FlatCtx) (blocks : List Block) (st : PlanState)
    (h : queue_tasks version pipeline_name pipelineCtxs blocks = .ok st) :
    st.execs.Pairwise (fun a b => ¬ eqTriple a b) := by
  have hp : PairwiseOK st :=
    processBlocks_pairwise blocks _ st h (List.Pairwise.nil)
  refine hp.imp ?_
  intro a b hab
  rw [← eqExec_eq_true_iff]
  simp [hab]

end Cue

namespace Cue

/-- Witness pipeline for C1: one block, one script, empty contexts. -/
def demoScript : Script :=
  { guid := "s1", path := "x.py", flattened_contexts := [[]],
    returns := "out", takes := none }

def demoBlock : Block :=
  { name := "b", serial := 0, flattened_contexts := [[]],
    scripts := [demoScript] }

def demoPlan : PlanState :=
  { execs := [mkExec "1" "p" "b" 0 demoScript []]
    takesOf := [none]
    pipes := []
    pIndex := [("out", [0])] }

/-- Witness for C1 on the one-script pipeline. -/
theorem queue_tasks_no_duplicates_witness :
    demoPlan.execs.Pairwise (fun a b => ¬ eqTriple a b) :=
  queue_tasks_no_duplicates "1" "p" [[]] [demoBlock] demoPlan rfl

/-! ### Linking (C2) -/

/-- A pipeline document whose blocks appear out of serial order: the
serial-2 block producing `"X"` is listed before the serial-1 block that
takes `"X"`. -/
def scriptProducer : Script :=
  { guid := "A", path := "a.py", flattened_contexts := [[]],
    returns := "X", takes := none }

def scriptConsumer : Script :=
  { guid := "B", path := "b.py", flattened_contexts := [[]],
    returns := "Y", takes := some "X" }

def blockLate : Block :=
  { name := "late", serial := 2, flattened_contexts := [[]],
    scripts := [scriptProducer] }

def blockEarly : Block :=
  { name := "early", serial := 1, flattened_contexts := [[]],
    scripts := [scriptConsumer] }

def stCex : PlanState :=
  { execs := [mkExec "1" "p" "late" 2 scriptProducer [],
      mkExec "1" "p" "early" 1 scriptConsumer []]
    takesOf := [none, some "X"]
    pipes := [(0, 1)]
    pIndex := [("X", [0]), ("Y", [1])] }

/-- C2, counterexample: `queue_tasks` iterates blocks in document order, not
serial order.  On a document listing a serial-2 producer block before a
serial-1 consumer block, the consumer (index 1, serial 1) is linked to an
upstream (index 0) of serial 2, violating `u.block_serial ≤ e.block_serial`
even though the document parses and links without error. -/
theorem queue_tasks_serial_counterexample :
    queue_tasks "1" "p" [[]] [blockLate, blockEarly] = .ok stCex ∧
    stCex.takesOf.get? 1 = some (some "X") ∧
    (0, 1) ∈ stCex.pipes ∧
    serialAt stCex 0 = 2 ∧ serialAt stCex 1 = 1 ∧
    ¬ serialAt stCex 0 ≤ serialAt stCex 1 := by
  refine ⟨rfl, rfl, ?_, rfl, rfl, by decide⟩
  simp [stCex]

theorem lookup_mem {α β : Type} [BEq α] [LawfulBEq α] :
    ∀ {l : List (α × β)} {k : α} {v : β},
      l.lookup k = some v → (k, v) ∈ l := by
  intro l
  induction l with
  | nil => intro k v h; cases h
  | cons kv rest ih =>
      intro k v h
      obtain ⟨k', v'⟩ := kv
      cases hk : (k == k') with
      | true =>
          simp only [List.lookup, hk] at h
          have h1 : k = k' := by simpa [beq_iff_eq] using hk
          have h2 : v' = v := by simpa using h
          subst h1
          subst h2
          exact List.mem_cons_self _ _
      | false =>
          simp only [List.lookup, hk] at h
          exact List.mem_cons_of_mem _ (ih h)

theorem mem_idxAdd {idx : ProdIndex} {tag : String} {i : Nat}
    {kv : String × List Nat} (h : kv ∈ idxAdd idx tag i) :
    kv ∈ idx ∨
    kv.1 = tag ∧
      (kv.2 = [i] ∨ ∃ l, idx.lookup tag = some l ∧ kv.2 = l ++ [i]) := by
  unfold idxAdd at h
  cases hl : idx.lookup tag with
  | none =>
      rw [hl] at h
      rcases List.mem_append.mp h with h1 | h1
      · exact Or.inl h1
      · have : kv = (tag, [i]) := by simpa using h1
        subst this
        exact Or.inr ⟨rfl, Or.inl rfl⟩
  | some l =>
      rw [hl] at h
      rcases List.mem_append.mp h with h1 | h1
      · exact Or.inl (List.mem_of_mem_filter h1)
      · have : kv = (tag, l ++ [i]) := by simpa using h1
        subst this
        exact Or.inr ⟨rfl, Or.inr ⟨l, rfl, rfl⟩⟩

theorem serialAt_append_lt {st st' : PlanState} {e : Exec}
    (hex : st'.execs = st.execs ++ [e]) {j : Nat}
    (hj : j < st.execs.length) : serialAt st' j = serialAt st j := by
  unfold serialAt
  rw [hex, List.get?_append hj]

theorem serialAt_append_last {st st' : PlanState} {e : Exec}
    (hex : st'.execs = st.execs ++ [e]) :
    serialAt st' st.execs.length = e.block_serial := by
  unfold serialAt
  rw [hex, List.get?_concat_length]
  rfl

theorem serialAt_le_of_forall {st : PlanState} {S : Int} {j : Nat}
    (hj : j < st.execs.length)
    (hall : ∀ e ∈ st.execs, e.block_serial ≤ S) : serialAt st j ≤ S := by
  unfold serialAt
  cases hg : st.execs.get? j with
  | none =>
      exfalso
      exact absurd (List.get?_eq_none.mp hg) (by omega)
  | some e =>
      exact hall e (List.get?_mem hg)

theorem nPipesIn_append {st st' : PlanState} {nps : List (Nat × Nat)}
    (h : st'.pipes = st.pipes ++ nps) (i : Nat) :
    nPipesIn st' i = nPipesIn st i + (nps.filter (fun ud => ud.2 = i)).length := by
  unfold nPipesIn
  rw [h, List.filter_append, List.length_append]

end Cue

namespace Cue

/-- The linking invariant carried through `queue_tasks` while processing a
block of serial `S`: planned executables all have serial at most `S`, the
pipeline-level index holds non-empty lists of in-range indices, every pipe
connects in-range executables with non-decreasing serial, and every
executable admitted from a script with a `takes` tag has at least one
incoming pipe. -/
structure LinkInv (st : PlanState) (S : Int) : Prop where
  len_eq : st.takesOf.length = st.execs.length
  execs_serial : ∀ e ∈ st.execs, e.block_serial ≤ S
  pidx_ok : ∀ kv ∈ st.pIndex, kv.2 ≠ [] ∧ ∀ u ∈ kv.2, u < st.execs.length
  pipes_lt : ∀ ud ∈ st.pipes, ud.1 < st.execs.length ∧ ud.2 < st.execs.length
  pipes_serial : ∀ ud ∈ st.pipes, serialAt st ud.1 ≤ serialAt st ud.2
  takes_pipes : ∀ i t, st.takesOf.get? i = some (some t) → 1 ≤ nPipesIn st i

/-- The block-level index invariant: non-empty lists of in-range indices, all
pointing at executables of the current block's serial `S`. -/
def BLinkInv (st : PlanState) (bIdx : ProdIndex) (S : Int) : Prop :=
  ∀ kv ∈ bIdx, kv.2 ≠ [] ∧
    ∀ u ∈ kv.2, u < st.execs.length ∧ serialAt st u = S

theorem LinkInv.mono {st : PlanState} {S S' : Int} (h : LinkInv st S)
    (hS : S ≤ S') : LinkInv st S' :=
  ⟨h.len_eq, fun e he => (h.execs_serial e he).trans hS, h.pidx_ok,
    h.pipes_lt, h.pipes_serial, h.takes_pipes⟩

theorem admitExec_link {v p bn : String} {S : Int} {script : Script}
    {ci : FlatCtx} {st : PlanState} {bIdx : ProdIndex} {st' : PlanState}
    {b' : ProdIndex}
    (h : admitExec v p bn S script ci st bIdx = .ok (st', b'))
    (hinv : LinkInv st S) (hb : BLinkInv st bIdx S) :
    LinkInv st' S ∧ BLinkInv st' b' S := by
  rcases admitExec_ok_cases h with ⟨rfl, rfl⟩ |
    ⟨hg, hexecs, htakes, hpidx, hbidx, hpipes⟩
  · exact ⟨hinv, hb⟩
  · have hlen' : st'.execs.length = st.execs.length + 1 := by
      rw [hexecs]; simp
    have hserial_new : serialAt st' st.execs.length = S :=
      serialAt_append_last hexecs
    have hserial_old : ∀ j, j < st.execs.length →
        serialAt st' j = serialAt st j :=
      fun j hj => serialAt_append_lt hexecs hj
    have hb1 : ∀ kv ∈ idxAdd bIdx script.returns st.execs.length,
        kv.2 ≠ [] ∧ ∀ u ∈ kv.2,
          u < st.execs.length + 1 ∧ serialAt st' u = S := by
      intro kv hkv
      rcases mem_idxAdd hkv with hold | ⟨_, hcase⟩
      · obtain ⟨hne, hu⟩ := hb kv hold
        refine ⟨hne, fun u hu' => ?_⟩
        obtain ⟨hlt, hs⟩ := hu u hu'
        exact ⟨by omega, by rw [hserial_old u hlt]; exact hs⟩
      · rcases hcase with h1 | ⟨l, hl, h1⟩
        · rw [h1]
          refine ⟨by simp, fun u hu' => ?_⟩
          have hui : u = st.execs.length := by simpa using hu'
          subst hui
          exact ⟨by omega, hserial_new⟩
        · rw [h1]
          obtain ⟨hne, hu⟩ := hb _ (lookup_mem hl)
          refine ⟨by simp, fun u hu' => ?_⟩
          rcases List.mem_append.mp hu' with h2 | h2
          · obtain ⟨hlt, hs⟩ := hu u h2
            exact ⟨by omega, by rw [hserial_old u hlt]; exact hs⟩
          · have hui : u = st.execs.length := by simpa using h2
            subst hui
            exact ⟨by omega, hserial_new⟩
    have hp1 : ∀ kv ∈ idxAdd st.pIndex script.returns st.execs.length,
        kv.2 ≠ [] ∧ ∀ u ∈ kv.2,
          u < st.execs.length + 1 ∧ serialAt st' u ≤ S := by
      intro kv hkv
      rcases mem_idxAdd hkv with hold | ⟨_, hcase⟩
      · obtain ⟨hne, hu⟩ := hinv.pidx_ok kv hold
        refine ⟨hne, fun u hu' => ?_⟩
        have hlt := hu u hu'
        refine ⟨by omega, ?_⟩
        rw [hserial_old u hlt]
        exact serialAt_le_of_forall hlt hinv.execs_serial
      · rcases hcase with h1 | ⟨l, hl, h1⟩
        · rw [h1]
          refine ⟨by simp, fun u hu' => ?_⟩
          have hui : u = st.execs.length := by simpa using hu'
          subst hui
          exact ⟨by omega, le_of_eq hserial_new⟩
        · rw [h1]
          obtain ⟨hne, hu⟩ := hinv.pidx_ok _ (lookup_mem hl)
          refine ⟨by simp, fun u hu' => ?_⟩
          rcases List.mem_append.mp hu' with h2 | h2
          · have hlt := hu u h2
            refine ⟨by omega, ?_⟩
            rw [hserial_old u hlt]
            exact serialAt_le_of_forall hlt hinv.execs_serial
          · have hui : u = st.execs.length := by simpa using h2
            subst hui
            exact ⟨by omega, le_of_eq hserial_new⟩
    have hups : ∀ t ups, script.takes = some t →
        st'.pipes = st.pipes ++
          ups.map (fun u => (u, st.execs.length)) →
        ((idxAdd bIdx script.returns st.execs.length).lookup t = some ups ∨
          ((idxAdd bIdx script.returns st.execs.length).lookup t = none ∧
            (idxAdd st.pIndex script.returns st.execs.length).lookup t
              = some ups)) →
        ups ≠ [] ∧ ∀ u ∈ ups,
          u < st.execs.length + 1 ∧ serialAt st' u ≤ S := by
      intro t ups _ _ hsrc
      rcases hsrc with hbl | ⟨_, hpl⟩
      · obtain ⟨hne, hu⟩ := hb1 _ (lookup_mem hbl)
        exact ⟨hne, fun u hu' => ⟨(hu u hu').1, le_of_eq (hu u hu').2⟩⟩
      · exact hp1 _ (lookup_mem hpl)
    have hfilter_map : ∀ (l : List Nat) (j : Nat),
        ((l.map (fun u => (u, j))).filter
          (fun ud : Nat × Nat => ud.2 = j)).length = l.length := by
      intro l j
      induction l with
      | nil => rfl
      | cons x xs ih => simp [ih]
    constructor
    · refine ⟨?_, ?_, ?_, ?_, ?_, ?_⟩
      · rw [hexecs, htakes]
        simp [hinv.len_eq]
      · intro e' he'
        rw [hexecs] at he'
        rcases List.mem_append.mp he' with h1 | h1
        · exact hinv.execs_serial e' h1
        · have : e' = mkExec v p bn S script ci := by simpa using h1
          subst this
          exact le_refl S
      · rw [hpidx, hlen']
        intro kv hkv
        exact ⟨(hp1 kv hkv).1, fun u hu => ((hp1 kv hkv).2 u hu).1⟩
      · rcases hpipes with ⟨hpp, _⟩ | ⟨t, ups, hts, hpp, hsrc⟩
        · rw [hpp, hlen']
          intro ud hud
          obtain ⟨h1, h2⟩ := hinv.pipes_lt ud hud
          exact ⟨by omega, by omega⟩
        · rw [hpp, hlen']
          intro ud hud
          rcases List.mem_append.mp hud with h1 | h1
          · obtain ⟨ha, hb2⟩ := hinv.pipes_lt ud h1
            exact ⟨by omega, by omega⟩
          · obtain ⟨u, hu, hueq⟩ := List.mem_map.mp h1
            obtain ⟨hne, hall⟩ := hups t ups hts hpp hsrc
            obtain ⟨hlt, _⟩ := hall u hu
            rw [← hueq]
            exact ⟨hlt, by omega⟩
      · rcases hpipes with ⟨hpp, _⟩ | ⟨t, ups, hts, hpp, hsrc⟩
        · rw [hpp]
          intro ud hud
          obtain ⟨h1, h2⟩ := hinv.pipes_lt ud hud
          rw [hserial_old ud.1 h1, hserial_old ud.2 h2]
          exact hinv.pipes_serial ud hud
        · rw [hpp]
          intro ud hud
          rcases List.mem_append.mp hud with h1 | h1
          · obtain ⟨ha, hb2⟩ := hinv.pipes_lt ud h1
            rw [hserial_old ud.1 ha, hserial_old ud.2 hb2]
            exact hinv.pipes_serial ud h1
          · obtain ⟨u, hu, hueq⟩ := List.mem_map.mp h1
            obtain ⟨hne, hall⟩ := hups t ups hts hpp hsrc
            obtain ⟨_, hle⟩ := hall u hu
            rw [← hueq]
            simpa [hserial_new] using hle
      · intro j t0 hj
        rw [htakes] at hj
        by_cases hjl : j < st.takesOf.length
        · rw [List.get?_append hjl] at hj
          have hold := hinv.takes_pipes j t0 hj
          rcases hpipes with ⟨hpp, _⟩ | ⟨t, ups, hts, hpp, hsrc⟩
          · have : nPipesIn st' j = nPipesIn st j := by
              unfold nPipesIn
              rw [hpp]
            omega
          · have := nPipesIn_append hpp j
            omega
        · by_cases hje : j = st.takesOf.length
          · subst hje
            rw [List.get?_concat_length] at hj
            have hjt : script.takes = some t0 := by
              simpa using hj
            rcases hpipes with ⟨hpp, hnone⟩ | ⟨t, ups, hts, hpp, hsrc⟩
            · rw [hnone] at hjt
              cases hjt
            · obtain ⟨hne, _⟩ := hups t ups hts hpp hsrc
              have := nPipesIn_append hpp st.takesOf.length
              rw [hinv.len_eq] at this ⊢
              rw [this, hfilter_map]
              have : 0 < ups.length := List.length_pos.mpr hne
              omega
          · rw [List.get?_eq_none.mpr (by simp; omega)] at hj
            cases hj
    · rw [hbidx]
      intro kv hkv
      refine ⟨(hb1 kv hkv).1, fun u hu => ?_⟩
      obtain ⟨h1, h2⟩ := (hb1 kv hkv).2 u hu
      rw [hlen']
      exact ⟨h1, h2⟩

end Cue

namespace Cue

theorem processCtxInstances_link {v p bn : String} {S : Int}
    {script : Script} :
    ∀ (cis : List FlatCtx) (st : PlanState) (bIdx : ProdIndex)
      (st' : PlanState) (b' : ProdIndex),
      processCtxInstances v p bn S script cis st bIdx = .ok (st', b') →
      LinkInv st S → BLinkInv st bIdx S →
      LinkInv st' S ∧ BLinkInv st' b' S := by
  intro cis
  induction cis with
  | nil =>
      intro st bIdx st' b' h hinv hb
      simp only [processCtxInstances, Except.ok.injEq, Prod.mk.injEq] at h
      rw [← h.1, ← h.2]
      exact ⟨hinv, hb⟩
  | cons ci rest ih =>
      intro st bIdx st' b' h hinv hb
      rw [processCtxInstances] at h
      cases ha : admitExec v p bn S script ci st bIdx with
      | error msg => rw [ha] at h; cases h
      | ok r =>
          rw [ha] at h
          obtain ⟨h1, h2⟩ := admitExec_link ha hinv hb
          exact ih r.1 r.2 st' b' h h1 h2

theorem processScripts_link {v p bn : String} {S : Int} {bc : FlatCtx} :
    ∀ (scripts : List Script) (st : PlanState) (bIdx : ProdIndex)
      (st' : PlanState) (b' : ProdIndex),
      processScripts v p bn S bc scripts st bIdx = .ok (st', b') →
      LinkInv st S → BLinkInv st bIdx S →
      LinkInv st' S ∧ BLinkInv st' b' S := by
  intro scripts
  induction scripts with
  | nil =>
      intro st bIdx st' b' h hinv hb
      simp only [processScripts, Except.ok.injEq, Prod.mk.injEq] at h
      rw [← h.1, ← h.2]
      exact ⟨hinv, hb⟩
  | cons script rest ih =>
      intro st bIdx st' b' h hinv hb
      rw [processScripts] at h
      cases ha : processCtxInstances v p bn S script
          (ContextHelper.merge [bc] script.flattened_contexts) st bIdx with
      | error msg => rw [ha] at h; cases h
      | ok r =>
          rw [ha] at h
          obtain ⟨h1, h2⟩ := processCtxInstances_link _ st bIdx r.1 r.2 ha hinv hb
          exact ih r.1 r.2 st' b' h h1 h2

theorem processBlockCtxs_link {v p bn : String} {S : Int}
    {scripts : List Script} :
    ∀ (bcs : List FlatCtx) (st st' : PlanState),
      processBlockCtxs v p bn S scripts bcs st = .ok st' →
      LinkInv st S → LinkInv st' S := by
  intro bcs
  induction bcs with
  | nil =>
      intro st st' h hinv
      simp only [processBlockCtxs, Except.ok.injEq] at h
      rw [← h]
      exact hinv
  | cons bc rest ih =>
      intro st st' h hinv
      rw [processBlockCtxs] at h
      cases ha : processScripts v p bn S bc scripts st [] with
      | error msg => rw [ha] at h; cases h
      | ok r =>
          rw [ha] at h
          have hb0 : BLinkInv st [] S := by
            intro kv hkv
            cases hkv
          exact ih r.1 st' h (processScripts_link scripts st [] r.1 r.2 ha hinv hb0).1

theorem processBlocks_link {v p : String} {pcs : List FlatCtx} :
    ∀ (blocks : List Block) (st : PlanState) (S : Int) (st' : PlanState),
      processBlocks v p pcs blocks st = .ok st' →
      LinkInv st S →
      (∀ b ∈ blocks, S ≤ b.serial) →
      (blocks.map Block.serial).Pairwise (· ≤ ·) →
      ∃ S', LinkInv st' S' := by
  intro blocks
  induction blocks with
  | nil =>
      intro st S st' h hinv _ _
      simp only [processBlocks, Except.ok.injEq] at h
      rw [← h]
      exact ⟨S, hinv⟩
  | cons b rest ih =>
      intro st S st' h hinv hge hsorted
      rw [processBlocks] at h
      cases ha : processBlockCtxs v p b.name b.serial b.scripts
          (ContextHelper.merge pcs b.flattened_contexts) st with
      | error msg => rw [ha] at h; cases h
      | ok st1 =>
          rw [ha] at h
          have hinv1 : LinkInv st b.serial :=
            hinv.mono (hge b (List.mem_cons_self _ _))
          have hinv2 : LinkInv st1 b.serial :=
            processBlockCtxs_link _ st st1 ha hinv1
          rw [List.map_cons, List.pairwise_cons] at hsorted
          refine ih st1 b.serial st' h hinv2 ?_ hsorted.2
          intro b2 hb2
          exact hsorted.1 b2.serial (List.mem_map_of_mem Block.serial hb2)

/-- C2, amended: provided the document lists its blocks in非-decreasing
serial order, every executable admitted from a script with a `takes` tag ends
planning with `n_pipes_in ≥ 1`, and every upstream connected to it has
`block_serial` at most its own.  (Without the ordering hypothesis the claim
fails: see the counterexample.) -/
theorem queue_tasks_linking (version pipeline_name : String)
    (pipelineCtxs : List FlatCtx) (blocks : List Block) (st : PlanState)
    (hsorted : (blocks.map Block.serial).Pairwise (· ≤ ·))
    (h : queue_tasks version pipeline_name pipelineCtxs blocks = .ok st) :
    ∀ i t, st.takesOf.get? i = some (some t) →
      1 ≤ nPipesIn st i ∧
      ∀ ud ∈ st.pipes, ud.2 = i → serialAt st ud.1 ≤ serialAt st i := by
  have hinv0 : ∀ S : Int,
      LinkInv { execs := [], takesOf := [], pipes := [], pIndex := [] } S := by
    intro S
    refine ⟨rfl, ?_, ?_, ?_, ?_, ?_⟩
    · intro e he; cases he
    · intro kv hkv; cases hkv
    · intro ud hud; cases hud
    · intro ud hud; cases hud
    · intro i t hit
      exfalso
      have : (List.get? ([] : List (Option String)) i) = none := by
        cases i <;> rfl
      rw [queue_tasks] at h
      rw [this] at hit
      cases hit
  cases blocks with
  | nil =>
      rw [queue_tasks, processBlocks] at h
      simp only [Except.ok.injEq] at h
      intro i t hit
      rw [← h] at hit
      have : (List.get? ([] : List (Option String)) i) = none := by
        cases i <;> rfl
      rw [this] at hit
      cases hit
  | cons b rest =>
      rw [queue_tasks] at h
      have hge : ∀ b2 ∈ b :: rest, b.serial ≤ b2.serial := by
        intro b2 hb2
        rcases List.mem_cons.mp hb2 with h1 | h1
        · rw [h1]
        · rw [List.map_cons, List.pairwise_cons] at hsorted
          exact hsorted.1 b2.serial (List.mem_map_of_mem Block.serial h1)
      obtain ⟨S', hinv⟩ := processBlocks_link (b :: rest) _ b.serial st h
        (hinv0 b.serial) hge hsorted
      intro i t hit
      refine ⟨hinv.takes_pipes i t hit, ?_⟩
      intro ud hud hud2
      have hps := hinv.pipes_serial ud hud
      rw [hud2] at hps
      exact hps

/-- Witness pipeline for C2 (amended): one block, a producer script and a
consumer script taking its output. -/
def wScriptA : Script :=
  { guid := "wA", path := "a", flattened_contexts := [[]],
    returns := "X", takes := none }

def wScriptB : Script :=
  { guid := "wB", path := "b", flattened_contexts := [[]],
    returns := "Y", takes := some "X" }

def wBlock : Block :=
  { name := "wb", serial := 0, flattened_contexts := [[]],
    scripts := [wScriptA, wScriptB] }

def wPlan : PlanState :=
  { execs := [mkExec "1" "p" "wb" 0 wScriptA [],
      mkExec "1" "p" "wb" 0 wScriptB []]
    takesOf := [none, some "X"]
    pipes := [(0, 1)]
    pIndex := [("X", [0]), ("Y", [1])] }

/-- Witness for C2 (amended): the consumer executable has one incoming pipe
and its upstream's serial does not exceed its own. -/
theorem queue_tasks_linking_witness :
    1 ≤ nPipesIn wPlan 1 ∧
    ∀ ud ∈ wPlan.pipes, ud.2 = 1 →
      serialAt wPlan ud.1 ≤ serialAt wPlan 1 := by
  exact queue_tasks_linking "1" "p" [[]] [wBlock] wPlan
    (by simp) rfl 1 "X" rfl

end Cue

namespace Cue

/-! ### Definitions preprocessing (`ScriptOrchestrator._preprocess_definitions`)

JSON/YAML documents are modelled as finite trees (`yaml.safe_load` /
`json.load` of a document produce trees of dicts, lists and scalars).  The
recursion of `_unpack_definitions_in_json_dict` descends into substituted
definition values and hence can diverge on self-referential definitions; the
model makes it total with a fuel parameter that `preprocess_definitions`
instantiates with a bound (`muJ`) sufficient for every run over
non-recursive definitions. -/

/-- A JSON value. -/
inductive J where
  | null
  | bool (b : Bool)
  | num (n : Int)
  | str (s : String)
  | arr (elems : List J)
  | obj (fields : List (String × J))
deriving Repr

/-- The reserved sentinel recognised by `ScriptOrchestrator._is_definition`. -/
def seeDefinitions : String := "$see definitions"

/-- `_is_definition`: the value is the literal sentinel string. -/
def isSeeDefinitions : J → Bool
  | .str s => s == seeDefinitions
  | _ => false

mutual
/-- Structural size of a JSON tree. -/
def sizeJ : J → Nat
  | .null => 1
  | .bool _ => 1
  | .num _ => 1
  | .str _ => 1
  | .arr es => 1 + sizeJList es
  | .obj fs => 1 + sizeJFields fs

def sizeJList : List J → Nat
  | [] => 0
  | v :: r => 1 + sizeJ v + sizeJList r

def sizeJFields : List (String × J) → Nat
  | [] => 0
  | kv :: r => 1 + sizeJ kv.2 + sizeJFields r
end

mutual
/-- Weighted size: a sentinel string additionally carries the weight `D`
reserved for the definition value substituted for it.  Substitution strictly
decreases this measure when definition values are sentinel-free. -/
def muJ (D : Nat) : J → Nat
  | .null => 1
  | .bool _ => 1
  | .num _ => 1
  | .str s => if s = seeDefinitions then 2 + D else 1
  | .arr es => 1 + muJList D es
  | .obj fs => 1 + muJFields D fs

def muJList (D : Nat) : List J → Nat
  | [] => 0
  | v :: r => 1 + muJ D v + muJList D r

def muJFields (D : Nat) : List (String × J) → Nat
  | [] => 0
  | kv :: r => 1 + muJ D kv.2 + muJFields D r
end

/-- `_unpack_existing_definition`: `del input_context[key]`, then either the
fatal diagnostic with `exit(1)` or re-insertion of `definitions[key]`. -/
def unpackOne (input_context : List (String × J)) (key : String)
    (definitions : List (String × J)) :
    Except (Nat × String) (List (String × J)) :=
  let ctx1 := input_context.filter (fun kv => kv.1 ≠ key)
  match definitions.lookup key with
  | none =>
      .error (1, "exception: definition " ++ key ++
        " referenced but not supplied in definitions")
  | some v => .ok (ctx1 ++ [(key, v)])

/-- `_unpack_all_definitions_in`: collect the keys whose value is the
sentinel, then unpack each in order. -/
def unpack_all_definitions_in (input_context : List (String × J))
    (definitions : List (String × J)) :
    Except (Nat × String) (List (String × J)) :=
  ((input_context.filter (fun kv => isSeeDefinitions kv.2)).map
      Prod.fst).foldlM
    (fun c key => unpackOne c key definitions) input_context

/-- Replace the value of the first entry with the given key (the in-place
mutation of the `context` sub-dict seen by the enclosing dict). -/
def replaceFirstVal : List (String × J) → String → J → List (String × J)
  | [], _, _ => []
  | (k, v) :: rest, key, v' =>
      if k = key then (k, v') :: rest
      else (k, v) :: replaceFirstVal rest key v'

/-- The context-unpacking step of `_unpack_definitions_in_json_dict`:
`self._unpack_all_definitions_in(json_object.get('context', {}),
definitions)`.  (A non-mapping `context` value makes Python raise
`AttributeError` on `.items()`, terminating the interpreter with exit code
1; schema-valid documents never reach that branch.) -/
def contextStep (fields : List (String × J))
    (definitions : List (String × J)) :
    Except (Nat × String) (List (String × J)) :=
  match fields.lookup "context" with
  | some (.obj ctxEntries) =>
      match unpack_all_definitions_in ctxEntries definitions with
      | .error e => .error e
      | .ok ctx1 => .ok (replaceFirstVal fields "context" (.obj ctx1))
  | some _ => .error (1, "AttributeError: object has no attribute items")
  | none => .ok fields

mutual
/-- `_unpack_definitions_in_json_dict`: unpack the `context` sub-map, then
recurse into every value. -/
def unpack_definitions_in_json_dict (definitions : List (String × J)) :
    Nat → List (String × J) →
    Except (Nat × String) (List (String × J))
  | 0, _ => .error (0, "maximum recursion depth exceeded")
  | fuel + 1, fields =>
      match contextStep fields definitions with
      | .error e => .error e
      | .ok fields1 => unpackValues definitions fuel fields1
termination_by fuel fields => (fuel, sizeJFields fields)
decreasing_by
  all_goals simp_wf
  all_goals exact Prod.Lex.left _ _ (by omega)

/-- The `for elem in json_object.values()` loop. -/
def unpackValues (definitions : List (String × J)) :
    Nat → List (String × J) →
    Except (Nat × String) (List (String × J))
  | _, [] => .ok []
  | fuel, (k, v) :: rest =>
      match unpackJValue definitions fuel v with
      | .error e => .error e
      | .ok v' =>
          match unpackValues definitions fuel rest with
          | .error e => .error e
          | .ok rest' => .ok ((k, v') :: rest')
termination_by fuel fields => (fuel, sizeJFields fields)
decreasing_by
  all_goals simp_wf
  all_goals exact Prod.Lex.right _ (by simp [sizeJ, sizeJList, sizeJFields] <;> omega)

/-- Dispatch on one value: recurse into dicts and lists, leave scalars. -/
def unpackJValue (definitions : List (String × J)) :
    Nat → J → Except (Nat × String) J
  | fuel, .obj fs =>
      match unpack_definitions_in_json_dict definitions fuel fs with
      | .error e => .error e
      | .ok fs' => .ok (.obj fs')
  | fuel, .arr es =>
      match unpack_definitions_in_json_list definitions fuel es with
      | .error e => .error e
      | .ok es' => .ok (.arr es')
  | _, v => .ok v
termination_by fuel v => (fuel, sizeJ v)
decreasing_by
  all_goals simp_wf
  all_goals exact Prod.Lex.right _ (by simp [sizeJ, sizeJList, sizeJFields] <;> omega)

/-- `_unpack_definitions_in_json_list`. -/
def unpack_definitions_in_json_list (definitions : List (String × J)) :
    Nat → List J → Except (Nat × String) (List J)
  | _, [] => .ok []
  | fuel, v :: rest =>
      match unpackJValue definitions fuel v with
      | .error e => .error e
      | .ok v' =>
          match unpack_definitions_in_json_list definitions fuel rest with
          | .error e => .error e
          | .ok rest' => .ok (v' :: rest')
termination_by fuel es => (fuel, sizeJList es)
decreasing_by
  all_goals simp_wf
  all_goals exact Prod.Lex.right _ (by simp [sizeJ, sizeJList, sizeJFields] <;> omega)
end

/-- `input_json.get('definitions', {})` at the document root. -/
def docDefinitions (doc : J) : List (String × J) :=
  match doc with
  | .obj fields =>
      match fields.lookup "definitions" with
      | some (.obj d) => d
      | _ => []
  | _ => []

/-- `_preprocess_definitions`: unpack every `context` sentinel in the
document against its top-level `definitions` map. -/
def preprocess_definitions (doc : J) : Except (Nat × String) J :=
  let definitions := docDefinitions doc
  unpackJValue definitions
    (muJ (sizeJFields definitions) doc + 2) doc

/-- The exit code of a preprocessing run, when it terminates the program. -/
def exitCodeOf (r : Except (Nat × String) J) : Option Nat :=
  match r with
  | .error e => some e.1
  | .ok _ => none

end Cue

namespace Cue

/-! ### Specification predicates for the preprocessor -/

/-- The document contains (somewhere in its tree) an object whose `context`
sub-map has an entry with the literal sentinel value and a key absent from
the definitions map. -/
inductive HasMissing (definitions : List (String × J)) : J → Prop where
  | here {fields : List (String × J)} {ctx : List (String × J)} {k : String} :
      List.lookup "context" fields = some (J.obj ctx) →
      (k, J.str seeDefinitions) ∈ ctx →
      List.lookup k definitions = none →
      HasMissing definitions (J.obj fields)
  | inField {fields : List (String × J)} {k : String} {v : J} :
      (k, v) ∈ fields → HasMissing definitions v →
      HasMissing definitions (J.obj fields)
  | inElem {es : List J} {v : J} :
      v ∈ es → HasMissing definitions v → HasMissing definitions (J.arr es)

/-- The tree contains no occurrence of the sentinel string. -/
inductive SFree : J → Prop where
  | null : SFree .null
  | bool (b : Bool) : SFree (.bool b)
  | num (n : Int) : SFree (.num n)
  | str {s : String} : s ≠ seeDefinitions → SFree (.str s)
  | arr {es : List J} : (∀ v ∈ es, SFree v) → SFree (.arr es)
  | obj {fs : List (String × J)} : (∀ kv ∈ fs, SFree kv.2) → SFree (.obj fs)

/-- Non-recursive definitions: no definition value contains the sentinel. -/
def GroundDefs (definitions : List (String × J)) : Prop :=
  ∀ kv ∈ definitions, SFree kv.2

/-- Well-formedness of a parsed document: every object has pairwise distinct
keys (guaranteed by the JSON/YAML readers, whose dicts cannot repeat keys). -/
inductive WFKeys : J → Prop where
  | null : WFKeys .null
  | bool (b : Bool) : WFKeys (.bool b)
  | num (n : Int) : WFKeys (.num n)
  | str (s : String) : WFKeys (.str s)
  | arr {es : List J} : (∀ v ∈ es, WFKeys v) → WFKeys (.arr es)
  | obj {fs : List (String × J)} : (fs.map Prod.fst).Nodup →
      (∀ kv ∈ fs, WFKeys kv.2) → WFKeys (.obj fs)

/-! ### Basic lemmas about the measures and predicates -/

theorem isSee_iff (v : J) :
    isSeeDefinitions v = true ↔ v = J.str seeDefinitions := by
  cases v <;> simp [isSeeDefinitions]

theorem sizeJ_pos : ∀ v : J, 1 ≤ sizeJ v := by
  intro v
  cases v <;> simp [sizeJ] <;> omega

theorem muJ_pos (D : Nat) : ∀ v : J, 1 ≤ muJ D v := by
  intro v
  cases v with
  | str s =>
      rw [muJ]
      by_cases h : s = seeDefinitions
      · rw [if_pos h]; omega
      · rw [if_neg h]
  | null => rw [muJ]
  | bool b => rw [muJ]
  | num n => rw [muJ]
  | arr es => rw [muJ]; omega
  | obj fs => rw [muJ]; omega

theorem muJFields_append (D : Nat) :
    ∀ l1 l2 : List (String × J),
      muJFields D (l1 ++ l2) = muJFields D l1 + muJFields D l2 := by
  intro l1 l2
  induction l1 with
  | nil => simp [muJFields]
  | cons kv rest ih => simp [muJFields, ih]; omega

theorem sizeJ_lt_of_mem_fields {l : List (String × J)} {k : String} {v : J}
    (h : (k, v) ∈ l) : sizeJ v < sizeJFields l := by
  induction l with
  | nil => cases h
  | cons kv rest ih =>
      rcases List.mem_cons.mp h with h1 | h1
      · rw [← h1, sizeJFields]
        show sizeJ v < 1 + sizeJ v + sizeJFields rest
        omega
      · have := ih h1
        rw [sizeJFields]
        omega

theorem muJ_lt_of_mem_fields {D : Nat} {l : List (String × J)} {k : String}
    {v : J} (h : (k, v) ∈ l) : muJ D v < muJFields D l := by
  induction l with
  | nil => cases h
  | cons kv rest ih =>
      rcases List.mem_cons.mp h with h1 | h1
      · rw [← h1, muJFields]
        show muJ D v < 1 + muJ D v + muJFields D rest
        omega
      · have := ih h1
        rw [muJFields]
        omega

theorem muJ_lt_of_mem_list {D : Nat} {l : List J} {v : J}
    (h : v ∈ l) : muJ D v < muJList D l := by
  induction l with
  | nil => cases h
  | cons x rest ih =>
      rcases List.mem_cons.mp h with h1 | h1
      · rw [h1, muJList]
        omega
      · have := ih h1
        rw [muJList]
        omega

theorem muJList_eq_sizeJList {D : Nat} {l : List J}
    (h : ∀ v ∈ l, muJ D v = sizeJ v) : muJList D l = sizeJList l := by
  induction l with
  | nil => rfl
  | cons v rest ih =>
      rw [muJList, sizeJList, h v (List.mem_cons_self _ _),
        ih (fun v hv => h v (List.mem_cons_of_mem _ hv))]

theorem muJFields_eq_sizeJFields {D : Nat} {l : List (String × J)}
    (h : ∀ kv ∈ l, muJ D kv.2 = sizeJ kv.2) :
    muJFields D l = sizeJFields l := by
  induction l with
  | nil => rfl
  | cons kv rest ih =>
      rw [muJFields, sizeJFields, h kv (List.mem_cons_self _ _),
        ih (fun kv hkv => h kv (List.mem_cons_of_mem _ hkv))]

theorem SFree_mu (D : Nat) {v : J} (h : SFree v) : muJ D v = sizeJ v := by
  induction h with
  | null => rfl
  | bool b => rfl
  | num n => rfl
  | str hs =>
      rw [muJ, sizeJ, if_neg hs]
  | arr hall ih =>
      rw [muJ, sizeJ, muJList_eq_sizeJList (fun v hv => ih v hv)]
  | obj hall ih =>
      rw [muJ, sizeJ, muJFields_eq_sizeJFields (fun kv hkv => ih kv hkv)]

theorem HasMissing_shape {definitions : List (String × J)} {v : J}
    (h : HasMissing definitions v) :
    (∃ fs, v = J.obj fs) ∨ (∃ es, v = J.arr es) := by
  cases h with
  | here h1 h2 h3 => exact Or.inl ⟨_, rfl⟩
  | inField h1 h2 => exact Or.inl ⟨_, rfl⟩
  | inElem h1 h2 => exact Or.inr ⟨_, rfl⟩

theorem isSee_false_of_HasMissing {definitions : List (String × J)} {v : J}
    (h : HasMissing definitions v) : isSeeDefinitions v = false := by
  rcases HasMissing_shape h with ⟨fs, rfl⟩ | ⟨es, rfl⟩ <;> rfl

theorem sentinel_not_ground {definitions : List (String × J)} {k : String}
    (hg : GroundDefs definitions)
    (h : definitions.lookup k = some (J.str seeDefinitions)) : False := by
  have hmem := lookup_mem h
  have := hg _ hmem
  cases this with
  | str hs => exact hs rfl

theorem lookup_eq_of_mem_nodup {α β : Type} [BEq α] [LawfulBEq α] :
    ∀ {l : List (α × β)} {k : α} {v : β},
      (l.map Prod.fst).Nodup → (k, v) ∈ l → l.lookup k = some v := by
  intro l
  induction l with
  | nil => intro k v _ h; cases h
  | cons kv rest ih =>
      intro k v hnd h
      obtain ⟨k', v'⟩ := kv
      rcases List.mem_cons.mp h with h1 | h1
      · obtain ⟨h2, h3⟩ := Prod.mk.injEq .. ▸ h1
        subst h2
        subst h3
        simp [List.lookup]
      · have hk : k ≠ k' := by
          intro hkk
          subst hkk
          have : k ∈ rest.map Prod.fst :=
            List.mem_map_of_mem Prod.fst h1
          exact (List.nodup_cons.mp (by simpa using hnd)).1 this
        have hbeq : (k == k') = false := beq_eq_false_iff_ne.mpr hk
        simp only [List.lookup, hbeq]
        exact ih (List.nodup_cons.mp (by simpa using hnd)).2 h1

end Cue

namespace Cue

/-! ### The `_unpack_all_definitions_in` fold -/

/-- Invariant of the unpacking fold over one context: `ctx` is the original
context dict, `c` the current state, `remaining` the sentinel keys not yet
processed. -/
structure CtxFoldInv (definitions ctx c : List (String × J))
    (remaining : List String) : Prop where
  nodup : (c.map Prod.fst).Nodup
  rem_nodup : remaining.Nodup
  rem_mem : ∀ k ∈ remaining, (k, J.str seeDefinitions) ∈ c
  mu_le : muJFields (sizeJFields definitions) c ≤
    muJFields (sizeJFields definitions) ctx
  prov : ∀ kv ∈ c, kv ∈ ctx ∨ ∃ k', definitions.lookup k' = some kv.2
  keep : ∀ kv ∈ ctx, isSeeDefinitions kv.2 = false → kv ∈ c

theorem unpackOne_error {c : List (String × J)} {k : String}
    {definitions : List (String × J)} {e : Nat × String}
    (h : unpackOne c k definitions = .error e) : ∃ msg, e = (1, msg) := by
  unfold unpackOne at h
  cases hl : definitions.lookup k with
  | none =>
      rw [hl] at h
      simp only [Except.error.injEq] at h
      exact ⟨_, h.symm⟩
  | some v => rw [hl] at h; cases h

theorem foldl_unpackOne_error {definitions : List (String × J)} :
    ∀ (ks : List String) (c : List (String × J)) (e : Nat × String),
      ks.foldlM (fun c key => unpackOne c key definitions) c = .error e →
      ∃ msg, e = (1, msg) := by
  intro ks
  induction ks with
  | nil => intro c e h; cases h
  | cons k rest ih =>
      intro c e h
      rw [List.foldlM_cons] at h
      cases hu : unpackOne c k definitions with
      | error e' =>
          rw [hu] at h
          cases h
          exact unpackOne_error hu
      | ok c1 =>
          rw [hu] at h
          exact ih c1 e h

theorem muJFields_filter_sentinel {D : Nat} :
    ∀ {c : List (String × J)} {k : String},
      (c.map Prod.fst).Nodup → (k, J.str seeDefinitions) ∈ c →
      muJFields D (c.filter (fun kv => kv.1 ≠ k)) + 3 + D = muJFields D c := by
  intro c
  induction c with
  | nil => intro k _ h; cases h
  | cons kv rest ih =>
      intro k hnd hmem
      obtain ⟨k', v'⟩ := kv
      have hnd2 : (k' :: rest.map Prod.fst).Nodup := by
        simpa only [List.map_cons] using hnd
      have hnd' := List.nodup_cons.mp hnd2
      rcases List.mem_cons.mp hmem with h1 | h1
      · injection h1 with h2 h3
        subst h2
        subst h3
        have hrest : rest.filter (fun kv => kv.1 ≠ k) = rest := by
          apply List.filter_eq_self.mpr
          intro kv hkv
          simp only [ne_eq, decide_eq_true_eq]
          intro hk
          exact hnd'.1 (hk ▸ List.mem_map_of_mem Prod.fst hkv)
        rw [List.filter_cons, if_neg (by simp), hrest, muJFields, muJ,
          if_pos rfl]
        omega
      · have hk : k' ≠ k := by
          intro hkk
          subst hkk
          exact hnd'.1 (List.mem_map_of_mem Prod.fst h1)
        rw [List.filter_cons, if_pos (by simpa using hk), muJFields,
          muJFields]
        have := ih hnd'.2 h1
        omega

theorem foldl_unpackOne_ok {definitions : List (String × J)}
    (hg : GroundDefs definitions) {ctx : List (String × J)}
    (hctx : (ctx.map Prod.fst).Nodup) :
    ∀ (ks : List String) (c r : List (String × J)),
      CtxFoldInv definitions ctx c ks →
      ks.foldlM (fun c key => unpackOne c key definitions) c = .ok r →
      CtxFoldInv definitions ctx r [] ∧
        ∀ k ∈ ks, (definitions.lookup k).isSome := by
  intro ks
  induction ks with
  | nil =>
      intro c r hinv h
      cases h
      refine ⟨⟨hinv.nodup, List.nodup_nil, ?_, hinv.mu_le, hinv.prov,
        hinv.keep⟩, ?_⟩
      · intro k hk; cases hk
      · intro k hk; cases hk
  | cons k rest ih =>
      intro c r hinv h
      rw [List.foldlM_cons] at h
      cases hu : unpackOne c k definitions with
      | error e => rw [hu] at h; cases h
      | ok c1 =>
          rw [hu] at h
          have hkc : (k, J.str seeDefinitions) ∈ c :=
            hinv.rem_mem k (List.mem_cons_self _ _)
          have hrem := List.nodup_cons.mp hinv.rem_nodup
          obtain ⟨g, hg1, hc1⟩ :
              ∃ g, definitions.lookup k = some g ∧
                c1 = c.filter (fun kv => kv.1 ≠ k) ++ [(k, g)] := by
            unfold unpackOne at hu
            cases hl : definitions.lookup k with
            | none => rw [hl] at hu; cases hu
            | some g =>
                rw [hl] at hu
                simp only [Except.ok.injEq] at hu
                exact ⟨g, rfl, hu.symm⟩
          have hgdef : (k, g) ∈ definitions := lookup_mem hg1
          have hgfree : SFree g := hg _ hgdef
          have hfilter_keys : ∀ kv ∈ c.filter (fun kv => kv.1 ≠ k),
              kv.1 ≠ k := by
            intro kv hkv
            have := List.of_mem_filter hkv
            simpa using this
          have hinv1 : CtxFoldInv definitions ctx c1 rest := by
            refine ⟨?_, hrem.2, ?_, ?_, ?_, ?_⟩
            · -- nodup keys of c1
              rw [hc1, List.map_append]
              rw [List.nodup_append]
              refine ⟨?_, by simp, ?_⟩
              · exact ((List.filter_sublist c).map Prod.fst).nodup hinv.nodup
              · intro x hx
                obtain ⟨kv, hkv, rfl⟩ := List.mem_map.mp hx
                simp only [List.map_cons, List.map_nil, List.mem_singleton]
                intro hxk
                exact hfilter_keys kv hkv hxk
            · -- remaining sentinel entries survive
              intro k2 hk2
              have hne : k2 ≠ k := by
                intro hkk
                subst hkk
                exact hrem.1 hk2
              have hmem := hinv.rem_mem k2 (List.mem_cons_of_mem _ hk2)
              rw [hc1]
              apply List.mem_append_left
              apply List.mem_filter.mpr
              exact ⟨hmem, by simpa using hne⟩
            · -- measure does not increase
              have heq := muJFields_filter_sentinel
                (D := sizeJFields definitions) hinv.nodup hkc
              have hgsize : sizeJ g < sizeJFields definitions :=
                sizeJ_lt_of_mem_fields hgdef
              have hgmu : muJ (sizeJFields definitions) g = sizeJ g :=
                SFree_mu _ hgfree
              rw [hc1, muJFields_append]
              have hmu := hinv.mu_le
              rw [muJFields, muJFields]
              dsimp only
              omega
            · -- provenance
              intro kv hkv
              rw [hc1] at hkv
              rcases List.mem_append.mp hkv with h1 | h1
              · exact hinv.prov kv (List.mem_of_mem_filter h1)
              · have : kv = (k, g) := by simpa using h1
                subst this
                exact Or.inr ⟨k, hg1⟩
            · -- non-sentinel originals survive
              intro kv hkv hsee
              have hmem := hinv.keep kv hkv hsee
              have hkctx : (k, J.str seeDefinitions) ∈ ctx := by
                rcases hinv.prov _ hkc with h1 | ⟨k', h1⟩
                · exact h1
                · exact absurd h1 (fun h1 => sentinel_not_ground hg h1)
              have hne : kv.1 ≠ k := by
                intro hkk
                have : kv = (k, J.str seeDefinitions) := by
                  obtain ⟨kk, vv⟩ := kv
                  simp only at hkk
                  subst hkk
                  have h1 := lookup_eq_of_mem_nodup hctx hkctx
                  have h2 := lookup_eq_of_mem_nodup hctx hkv
                  rw [h1] at h2
                  simpa using h2.symm
                rw [this] at hsee
                simp [isSeeDefinitions, seeDefinitions] at hsee
              rw [hc1]
              apply List.mem_append_left
              exact List.mem_filter.mpr ⟨hmem, by simpa using hne⟩
          obtain ⟨hfin, hres⟩ := ih c1 r hinv1 h
          refine ⟨hfin, ?_⟩
          intro k2 hk2
          rcases List.mem_cons.mp hk2 with h1 | h1
          · subst h1
            rw [hg1]
            rfl
          · exact hres k2 h1

end Cue

namespace Cue

theorem unpackAll_error_code {definitions ctx : List (String × J)}
    {e : Nat × String}
    (h : unpack_all_definitions_in ctx definitions = .error e) :
    ∃ msg, e = (1, msg) := by
  unfold unpack_all_definitions_in at h
  exact foldl_unpackOne_error _ _ _ h

theorem unpackAll_ok_spec {definitions : List (String × J)}
    (hg : GroundDefs definitions) {ctx ctx' : List (String × J)}
    (hnd : (ctx.map Prod.fst).Nodup)
    (h : unpack_all_definitions_in ctx definitions = .ok ctx') :
    CtxFoldInv definitions ctx ctx' [] ∧
      ∀ kv ∈ ctx, isSeeDefinitions kv.2 = true →
        (definitions.lookup kv.1).isSome := by
  unfold unpack_all_definitions_in at h
  have hinit : CtxFoldInv definitions ctx ctx
      ((ctx.filter (fun kv => isSeeDefinitions kv.2)).map Prod.fst) := by
    refine ⟨hnd, ?_, ?_, le_refl _, fun kv hkv => Or.inl hkv, fun kv hkv _ => hkv⟩
    · exact ((List.filter_sublist ctx).map Prod.fst).nodup hnd
    · intro k hk
      obtain ⟨kv, hkv, rfl⟩ := List.mem_map.mp hk
      have hsee := List.of_mem_filter hkv
      have hkv2 : kv.2 = J.str seeDefinitions := (isSee_iff kv.2).mp hsee
      have : kv = (kv.1, J.str seeDefinitions) := by
        obtain ⟨a, b⟩ := kv
        simpa using hkv2
      rw [← this]
      exact List.mem_of_mem_filter hkv
  obtain ⟨hfin, hres⟩ := foldl_unpackOne_ok hg hnd _ ctx ctx' hinit h
  refine ⟨hfin, ?_⟩
  intro kv hkv hsee
  apply hres
  apply List.mem_map.mpr
  exact ⟨kv, List.mem_filter.mpr ⟨hkv, hsee⟩, rfl⟩

theorem mem_replaceFirstVal_of_ne {fs : List (String × J)} {key : String}
    {X : J} {k1 : String} {v1 : J} (hmem : (k1, v1) ∈ fs) (hne : k1 ≠ key) :
    (k1, v1) ∈ replaceFirstVal fs key X := by
  induction fs with
  | nil => cases hmem
  | cons kv rest ih =>
      obtain ⟨k', v'⟩ := kv
      rw [replaceFirstVal]
      rcases List.mem_cons.mp hmem with h1 | h1
      · injection h1 with h2 h3
        subst h2
        subst h3
        rw [if_neg hne]
        exact List.mem_cons_self _ _
      · by_cases hk : k' = key
        · rw [if_pos hk]
          exact List.mem_cons_of_mem _ h1
        · rw [if_neg hk]
          exact List.mem_cons_of_mem _ (ih h1)

theorem mem_replaceFirstVal_self {fs : List (String × J)} {key : String}
    {X v0 : J} (hl : fs.lookup key = some v0) :
    (key, X) ∈ replaceFirstVal fs key X := by
  induction fs with
  | nil => cases hl
  | cons kv rest ih =>
      obtain ⟨k', v'⟩ := kv
      rw [replaceFirstVal]
      by_cases hk : k' = key
      · rw [if_pos hk]
        rw [hk]
        exact List.mem_cons_self _ _
      · rw [if_neg hk]
        have hbeq : (key == k') = false :=
          beq_eq_false_iff_ne.mpr (fun h => hk h.symm)
        simp only [List.lookup, hbeq] at hl
        exact List.mem_cons_of_mem _ (ih hl)

theorem mem_replaceFirstVal {fs : List (String × J)} {key : String} {X : J}
    {kv : String × J} (h : kv ∈ replaceFirstVal fs key X) :
    kv ∈ fs ∨ kv = (key, X) := by
  induction fs with
  | nil => cases h
  | cons kv' rest ih =>
      obtain ⟨k', v'⟩ := kv'
      rw [replaceFirstVal] at h
      by_cases hk : k' = key
      · rw [if_pos hk] at h
        rcases List.mem_cons.mp h with h1 | h1
        · subst hk
          exact Or.inr (by simpa using h1)
        · exact Or.inl (List.mem_cons_of_mem _ h1)
      · rw [if_neg hk] at h
        rcases List.mem_cons.mp h with h1 | h1
        · exact Or.inl (h1 ▸ List.mem_cons_self _ _)
        · rcases ih h1 with h2 | h2
          · exact Or.inl (List.mem_cons_of_mem _ h2)
          · exact Or.inr h2

theorem muJFields_replaceFirstVal {D : Nat} :
    ∀ {fs : List (String × J)} {key : String} {X v0 : J},
      fs.lookup key = some v0 → muJ D X ≤ muJ D v0 →
      muJFields D (replaceFirstVal fs key X) ≤ muJFields D fs := by
  intro fs
  induction fs with
  | nil => intro key X v0 hl _; cases hl
  | cons kv rest ih =>
      intro key X v0 hl hX
      obtain ⟨k', v'⟩ := kv
      rw [replaceFirstVal]
      by_cases hk : k' = key
      · rw [if_pos hk]
        have hbeq : (key == k') = true := by
          subst hk; exact beq_self_eq_true _
        simp only [List.lookup, hbeq] at hl
        have hv : v' = v0 := by simpa using hl
        subst hv
        rw [muJFields, muJFields]
        dsimp only
        omega
      · rw [if_neg hk]
        have hbeq : (key == k') = false :=
          beq_eq_false_iff_ne.mpr (fun h => hk h.symm)
        simp only [List.lookup, hbeq] at hl
        have := ih hl hX
        rw [muJFields, muJFields]
        omega

theorem contextStep_error {fields definitions : List (String × J)}
    {e : Nat × String} (h : contextStep fields definitions = .error e) :
    ∃ msg, e = (1, msg) := by
  unfold contextStep at h
  cases hl : fields.lookup "context" with
  | none => rw [hl] at h; cases h
  | some v =>
      rw [hl] at h
      cases v with
      | obj ctxEntries =>
          simp only [] at h
          cases hu : unpack_all_definitions_in ctxEntries definitions with
          | error e' =>
              rw [hu] at h
              simp only [Except.error.injEq] at h
              rw [← h]
              exact unpackAll_error_code hu
          | ok ctx1 => rw [hu] at h; cases h
      | null => simp only [Except.error.injEq] at h; exact ⟨_, h.symm⟩
      | bool b => simp only [Except.error.injEq] at h; exact ⟨_, h.symm⟩
      | num n => simp only [Except.error.injEq] at h; exact ⟨_, h.symm⟩
      | str s => simp only [Except.error.injEq] at h; exact ⟨_, h.symm⟩
      | arr es => simp only [Except.error.injEq] at h; exact ⟨_, h.symm⟩

theorem unpackValues_good {definitions : List (String × J)} {f : Nat} :
    ∀ (l : List (String × J)),
      (∀ kv ∈ l,
        (∃ msg, unpackJValue definitions f kv.2 = .error (1, msg)) ∨
        (∃ v', unpackJValue definitions f kv.2 = .ok v' ∧
          ¬ HasMissing definitions kv.2)) →
      (∃ msg, unpackValues definitions f l = .error (1, msg)) ∨
      (∃ l', unpackValues definitions f l = .ok l' ∧
        ∀ kv ∈ l, ¬ HasMissing definitions kv.2) := by
  intro l
  induction l with
  | nil =>
      intro _
      right
      refine ⟨[], by simp [unpackValues], ?_⟩
      intro kv h
      cases h
  | cons kv rest ih =>
      intro hall
      obtain ⟨k, v⟩ := kv
      rcases hall (k, v) (List.mem_cons_self _ _) with ⟨msg, he⟩ |
        ⟨v', hv', hnm⟩
      · left
        exact ⟨msg, by simp [unpackValues, he]⟩
      · rcases ih (fun kv h => hall kv (List.mem_cons_of_mem _ h)) with
          ⟨msg, he⟩ | ⟨l', hl', hforall⟩
        · left
          exact ⟨msg, by simp [unpackValues, hv', he]⟩
        · right
          refine ⟨(k, v') :: l', by simp [unpackValues, hv', hl'], ?_⟩
          intro kv hkv
          rcases List.mem_cons.mp hkv with h1 | h1
          · rw [h1]
            exact hnm
          · exact hforall kv h1

theorem unpackList_good {definitions : List (String × J)} {f : Nat} :
    ∀ (l : List J),
      (∀ v ∈ l,
        (∃ msg, unpackJValue definitions f v = .error (1, msg)) ∨
        (∃ v', unpackJValue definitions f v = .ok v' ∧
          ¬ HasMissing definitions v)) →
      (∃ msg, unpack_definitions_in_json_list definitions f l
        = .error (1, msg)) ∨
      (∃ l', unpack_definitions_in_json_list definitions f l = .ok l' ∧
        ∀ v ∈ l, ¬ HasMissing definitions v) := by
  intro l
  induction l with
  | nil =>
      intro _
      right
      refine ⟨[], by simp [unpack_definitions_in_json_list], ?_⟩
      intro v h
      cases h
  | cons v rest ih =>
      intro hall
      rcases hall v (List.mem_cons_self _ _) with ⟨msg, he⟩ | ⟨v', hv', hnm⟩
      · left
        exact ⟨msg, by simp [unpack_definitions_in_json_list, he]⟩
      · rcases ih (fun v h => hall v (List.mem_cons_of_mem _ h)) with
          ⟨msg, he⟩ | ⟨l', hl', hforall⟩
        · left
          exact ⟨msg, by simp [unpack_definitions_in_json_list, hv', he]⟩
        · right
          refine ⟨v' :: l',
            by simp [unpack_definitions_in_json_list, hv', hl'], ?_⟩
          intro w hw
          rcases List.mem_cons.mp hw with h1 | h1
          · rw [h1]
            exact hnm
          · exact hforall w h1

end Cue

namespace Cue

theorem HasMissing_transfer {definitions ctx ctx1 : List (String × J)}
    (hinv : CtxFoldInv definitions ctx ctx1 [])
    (hm : HasMissing definitions (J.obj ctx)) :
    HasMissing definitions (J.obj ctx1) := by
  cases hm with
  | here hl hmem hmiss =>
      have hcc := lookup_mem hl
      have hkeep := hinv.keep _ hcc rfl
      exact HasMissing.here (lookup_eq_of_mem_nodup hinv.nodup hkeep)
        hmem hmiss
  | inField hmem hm2 =>
      have hsee := isSee_false_of_HasMissing hm2
      exact HasMissing.inField (hinv.keep _ hmem hsee) hm2

theorem contextStep_ok_cases {fields definitions fields1 : List (String × J)}
    (h : contextStep fields definitions = .ok fields1) :
    (fields.lookup "context" = none ∧ fields1 = fields) ∨
    (∃ ctx ctx1, fields.lookup "context" = some (J.obj ctx) ∧
      unpack_all_definitions_in ctx definitions = .ok ctx1 ∧
      fields1 = replaceFirstVal fields "context" (J.obj ctx1)) := by
  unfold contextStep at h
  cases hl : fields.lookup "context" with
  | none =>
      rw [hl] at h
      simp only [Except.ok.injEq] at h
      exact Or.inl ⟨rfl, h.symm⟩
  | some v =>
      rw [hl] at h
      cases v with
      | obj ctx =>
          simp only [] at h
          cases hu : unpack_all_definitions_in ctx definitions with
          | error e => rw [hu] at h; cases h
          | ok ctx1 =>
              rw [hu] at h
              simp only [Except.ok.injEq] at h
              exact Or.inr ⟨ctx, ctx1, rfl, hu, h.symm⟩
      | null => simp at h
      | bool b => simp at h
      | num n => simp at h
      | str s => simp at h
      | arr es => simp at h

/-- Main induction: over well-formed documents with non-recursive
definitions and sufficient fuel, the preprocessor either terminates the
program with exit code 1 or succeeds, and success implies no context entry
references a missing definition. -/
theorem unpack_good {definitions : List (String × J)}
    (hg : GroundDefs definitions)
    (hwfd : ∀ kv ∈ definitions, WFKeys kv.2) :
    ∀ (N : Nat) (v : J) (fuel : Nat), WFKeys v →
      muJ (sizeJFields definitions) v ≤ N →
      muJ (sizeJFields definitions) v < fuel →
      (∃ msg, unpackJValue definitions fuel v = .error (1, msg)) ∨
      (∃ v', unpackJValue definitions fuel v = .ok v' ∧
        ¬ HasMissing definitions v) := by
  intro N
  induction N with
  | zero =>
      intro v fuel _ hle _
      exact absurd hle
        (by have := muJ_pos (sizeJFields definitions) v; omega)
  | succ N ih =>
      intro v fuel hwf hle hfuel
      cases v with
      | null =>
          right
          exact ⟨J.null, by simp [unpackJValue], fun hm => by cases hm⟩
      | bool b =>
          right
          exact ⟨J.bool b, by simp [unpackJValue], fun hm => by cases hm⟩
      | num n =>
          right
          exact ⟨J.num n, by simp [unpackJValue], fun hm => by cases hm⟩
      | str s =>
          right
          exact ⟨J.str s, by simp [unpackJValue], fun hm => by cases hm⟩
      | arr es =>
          have hwfes : ∀ w ∈ es, WFKeys w := by
            cases hwf with
            | arr hall => exact hall
          have hallgood : ∀ w ∈ es,
              (∃ msg, unpackJValue definitions fuel w = .error (1, msg)) ∨
              (∃ w', unpackJValue definitions fuel w = .ok w' ∧
                ¬ HasMissing definitions w) := by
            intro w hw
            have hlt : muJ (sizeJFields definitions) w <
                muJ (sizeJFields definitions) (J.arr es) := by
              have := muJ_lt_of_mem_list (D := sizeJFields definitions) hw
              rw [muJ]
              omega
            exact ih w fuel (hwfes w hw) (by omega) (by omega)
          rcases unpackList_good es hallgood with ⟨msg, he⟩ |
            ⟨l', hl', hforall⟩
          · left
            exact ⟨msg, by simp [unpackJValue, he]⟩
          · right
            refine ⟨J.arr l', by simp [unpackJValue, hl'], ?_⟩
            intro hm
            cases hm with
            | inElem hw hmw => exact hforall _ hw hmw
      | obj fields =>
          cases fuel with
          | zero => exact absurd hfuel (by omega)
          | succ f =>
              have hfields_wf : (fields.map Prod.fst).Nodup ∧
                  ∀ kv ∈ fields, WFKeys kv.2 := by
                cases hwf with
                | obj hnd hvals => exact ⟨hnd, hvals⟩
              obtain ⟨hndf, hvals⟩ := hfields_wf
              have hmuobj : muJ (sizeJFields definitions) (J.obj fields) =
                  1 + muJFields (sizeJFields definitions) fields := by
                rw [muJ]
              cases hcs : contextStep fields definitions with
              | error e =>
                  obtain ⟨msg, rfl⟩ := contextStep_error hcs
                  left
                  exact ⟨msg, by
                    simp [unpackJValue, unpack_definitions_in_json_dict, hcs]⟩
              | ok fields1 =>
                  rcases contextStep_ok_cases hcs with ⟨hl, rfl⟩ |
                    ⟨ctx, ctx1, hl, hu, rfl⟩
                  · -- no context sub-map
                    have hgood : ∀ kv ∈ fields1,
                        (∃ msg, unpackJValue definitions f kv.2
                          = .error (1, msg)) ∨
                        (∃ v', unpackJValue definitions f kv.2 = .ok v' ∧
                          ¬ HasMissing definitions kv.2) := by
                      intro kv hkv
                      obtain ⟨k0, v0⟩ := kv
                      have hlt := muJ_lt_of_mem_fields
                        (D := sizeJFields definitions) hkv
                      exact ih v0 f (hvals _ hkv) (by omega) (by omega)
                    rcases unpackValues_good fields1 hgood with ⟨msg, he⟩ |
                      ⟨l', hl', hforall⟩
                    · left
                      exact ⟨msg, by
                        simp [unpackJValue, unpack_definitions_in_json_dict,
                          hcs, he]⟩
                    · right
                      refine ⟨J.obj l', by
                        simp [unpackJValue, unpack_definitions_in_json_dict,
                          hcs, hl'], ?_⟩
                      intro hm
                      cases hm with
                      | here hl2 hmem hmiss => rw [hl] at hl2; cases hl2
                      | inField hmem hm2 => exact hforall _ hmem hm2
                  · -- context sub-map unpacked into ctx1
                    have hctxmem : ("context", J.obj ctx) ∈ fields :=
                      lookup_mem hl
                    have hctx_wf : (ctx.map Prod.fst).Nodup ∧
                        ∀ kv ∈ ctx, WFKeys kv.2 := by
                      have := hvals _ hctxmem
                      cases this with
                      | obj hnd hv => exact ⟨hnd, hv⟩
                    obtain ⟨hndc, hvalsc⟩ := hctx_wf
                    obtain ⟨hfinv, hres⟩ := unpackAll_ok_spec hg hndc hu
                    have hwfctx1 : WFKeys (J.obj ctx1) := by
                      refine WFKeys.obj hfinv.nodup ?_
                      intro kv2 hkv2
                      rcases hfinv.prov kv2 hkv2 with hin | ⟨k', hk'⟩
                      · exact hvalsc kv2 hin
                      · exact hwfd (k', kv2.2) (lookup_mem hk')
                    have hmuctx1 : muJ (sizeJFields definitions) (J.obj ctx1)
                        ≤ muJ (sizeJFields definitions) (J.obj ctx) := by
                      rw [muJ, muJ]
                      have := hfinv.mu_le
                      omega
                    have hmuctx : muJ (sizeJFields definitions) (J.obj ctx) <
                        muJFields (sizeJFields definitions) fields :=
                      muJ_lt_of_mem_fields hctxmem
                    have hgood : ∀ kv ∈ replaceFirstVal fields "context"
                        (J.obj ctx1),
                        (∃ msg, unpackJValue definitions f kv.2
                          = .error (1, msg)) ∨
                        (∃ v', unpackJValue definitions f kv.2 = .ok v' ∧
                          ¬ HasMissing definitions kv.2) := by
                      intro kv hkv
                      obtain ⟨k0, v0⟩ := kv
                      rcases mem_replaceFirstVal hkv with h1 | h1
                      · have hlt := muJ_lt_of_mem_fields
                          (D := sizeJFields definitions) h1
                        exact ih v0 f (hvals _ h1) (by omega) (by omega)
                      · injection h1 with h2 h3
                        subst h2
                        subst h3
                        exact ih (J.obj ctx1) f hwfctx1 (by omega) (by omega)
                    rcases unpackValues_good _ hgood with ⟨msg, he⟩ |
                      ⟨l', hl', hforall⟩
                    · left
                      exact ⟨msg, by
                        simp [unpackJValue, unpack_definitions_in_json_dict,
                          hcs, he]⟩
                    · right
                      refine ⟨J.obj l', by
                        simp [unpackJValue, unpack_definitions_in_json_dict,
                          hcs, hl'], ?_⟩
                      intro hm
                      cases hm with
                      | here hl2 hmem hmiss =>
                          rw [hl] at hl2
                          have hctx0 := Option.some.inj hl2
                          have hctx0' := J.obj.inj hctx0
                          subst hctx0'
                          have := hres _ hmem (by simp [isSeeDefinitions])
                          rw [hmiss] at this
                          cases this
                      | inField hmem hm2 =>
                          rename_i k1 v1
                          by_cases hk1 : k1 = "context"
                          · subst hk1
                            have hv1 : v1 = J.obj ctx := by
                              have h2 := lookup_eq_of_mem_nodup hndf hmem
                              rw [hl] at h2
                              exact (Option.some.inj h2).symm
                            subst hv1
                            have hm3 := HasMissing_transfer hfinv hm2
                            have hmem1 : ("context", J.obj ctx1) ∈
                                replaceFirstVal fields "context"
                                  (J.obj ctx1) :=
                              mem_replaceFirstVal_self hl
                            exact hforall _ hmem1 hm3
                          · have hmem1 := mem_replaceFirstVal_of_ne
                              (X := J.obj ctx1) hmem hk1
                            exact hforall _ hmem1 hm2

end Cue

namespace Cue

theorem WFKeys_docDefinitions {doc : J} (h : WFKeys doc) :
    ∀ kv ∈ docDefinitions doc, WFKeys kv.2 := by
  intro kv hkv
  unfold docDefinitions at hkv
  cases doc with
  | obj fields =>
      simp only [] at hkv
      cases hl : fields.lookup "definitions" with
      | none => rw [hl] at hkv; simp at hkv
      | some v =>
          rw [hl] at hkv
          cases v with
          | obj d =>
              simp only [] at hkv
              have hmem := lookup_mem hl
              cases h with
              | obj hnd hvals =>
                  have hd := hvals _ hmem
                  cases hd with
                  | obj hnd2 hvals2 => exact hvals2 kv hkv
          | null => simp at hkv
          | bool b => simp at hkv
          | num n => simp at hkv
          | str s => simp at hkv
          | arr es => simp at hkv
  | null => simp at hkv
  | bool b => simp at hkv
  | num n => simp at hkv
  | str s => simp at hkv
  | arr es => simp at hkv

/-- C8, amended: for every well-formed input document (objects have unique
keys, as any JSON/YAML-parsed document does) whose definitions are
non-recursive (no definition value contains the sentinel) and that contains
a context entry with the literal value `"$see definitions"` whose key is
absent from the definitions map, preprocessing terminates the program with
exit code 1 — not 2 — and a single-line diagnostic; no plan is produced. -/
theorem preprocess_missing_definition (doc : J)
    (hwf : WFKeys doc)
    (hg : GroundDefs (docDefinitions doc))
    (hm : HasMissing (docDefinitions doc) doc) :
    ∃ msg, preprocess_definitions doc = .error (1, msg) := by
  have hwfd := WFKeys_docDefinitions hwf
  rcases unpack_good hg hwfd
      (muJ (sizeJFields (docDefinitions doc)) doc) doc
      (muJ (sizeJFields (docDefinitions doc)) doc + 2)
      hwf (le_refl _) (by omega) with ⟨msg, h⟩ | ⟨v', h, hnm⟩
  · exact ⟨msg, h⟩
  · exact absurd hm hnm

/-- The concrete document of the counterexample: a `context` entry
`region: "$see definitions"` with no `definitions` map at all. -/
def doc0 : J :=
  J.obj [("name", J.str "p"),
    ("context", J.obj [("region", J.str "$see definitions")])]

/-- C8, counterexample: on `doc0` the preprocessor prints the single-line
diagnostic and exits with code 1, not 2 — `_unpack_existing_definition`
calls `exit(1)`. -/
theorem preprocess_exit_code_counterexample :
    HasMissing (docDefinitions doc0) doc0 ∧
    preprocess_definitions doc0 = .error (1,
      "exception: definition region referenced but not supplied in definitions") ∧
    exitCodeOf (preprocess_definitions doc0) = some 1 ∧
    exitCodeOf (preprocess_definitions doc0) ≠ some 2 := by
  have heval : preprocess_definitions doc0 = .error (1,
      "exception: definition region referenced but not supplied in definitions") := by
    simp [preprocess_definitions, docDefinitions, unpackJValue,
      unpack_definitions_in_json_dict, unpackValues,
      unpack_definitions_in_json_list, contextStep, unpack_all_definitions_in,
      unpackOne, replaceFirstVal, isSeeDefinitions, seeDefinitions,
      muJ, muJList, muJFields, sizeJ, sizeJList, sizeJFields, doc0,
      List.lookup, List.foldlM, List.filter, List.map]
  refine ⟨?_, heval, ?_, ?_⟩
  · refine @HasMissing.here (docDefinitions doc0)
      [("name", J.str "p"),
        ("context", J.obj [("region", J.str "$see definitions")])]
      [("region", J.str "$see definitions")] "region" rfl ?_ rfl
    simp [seeDefinitions]
  · rw [heval]
    rfl
  · rw [heval]
    simp [exitCodeOf]

/-- Witness for C8 (amended) on `doc0`. -/
theorem preprocess_missing_definition_witness :
    ∃ msg, preprocess_definitions doc0 = Except.error (1, msg) := by
  have hwf : WFKeys doc0 := by
    refine WFKeys.obj (by simp) ?_
    intro kv hkv
    rcases List.mem_cons.mp hkv with h1 | h1
    · rw [h1]
      exact WFKeys.str _
    · have : kv = ("context", J.obj [("region", J.str "$see definitions")]) := by
        simpa using h1
      rw [this]
      refine WFKeys.obj (by simp) ?_
      intro kv2 hkv2
      have : kv2 = ("region", J.str "$see definitions") := by simpa using hkv2
      rw [this]
      exact WFKeys.str _
  have hg : GroundDefs (docDefinitions doc0) := by
    intro kv hkv
    simp [docDefinitions, doc0, List.lookup] at hkv
  have hm : HasMissing (docDefinitions doc0) doc0 := by
    refine @HasMissing.here (docDefinitions doc0)
      [("name", J.str "p"),
        ("context", J.obj [("region", J.str "$see definitions")])]
      [("region", J.str "$see definitions")] "region" rfl ?_ rfl
    simp [seeDefinitions]
  exact preprocess_missing_definition doc0 hwf hg hm

end Cue
